import Mathlib

/-!
# bayes: a binary naive Bayes text classifier (Go)

Shallow embedding of `bayes.go` and `common.go`.

* Go `int` is 64 bits wide and its addition wraps around.  `sum64`,
  `plus_arr64`, `trainStep64`, `trainCounts64` and `MultinomialNB64` embed the
  program with that addition (`wrapInt64`).  `sum`, `plus_arr`, `trainStep`,
  `trainCounts` and `MultinomialNB` are the same functions with the addition
  of `Int`; the two agree as long as the sums stay in the 64-bit range
  (`trainCounts64_eq_map`, `wrapInt64_of_inInt64`), which is so for the
  presence marks and labels the program is written for.
* Go `string` is `String`.  `sort.Strings` compares bytewise, which on UTF-8
  text is the lexicographic order of the code points, the order of `String`.
* A slice is a `List`.
* A run-time panic of the Go program (index out of range) is the error side of
  `Except GoPanic`.
* `float64` arithmetic is a parameter: every function that computes on floats
  takes a `Float64Ops F` giving the conversion, the four operations, `math.Log`
  and the comparison `>`.
* `map[string]bool` is the list of its keys, without repetition.  The order in
  which `range` visits a map is not fixed by Go; it is the parameter
  `MapOrder`.
* The `sync.RWMutex` of `Set` guards against concurrent callers; the embedding
  is of a single caller.  The values an operation computes do not depend on
  the locks, so the operations are embedded without them, and the calls of
  `Lock` and `Unlock` an operation makes are embedded apart, as the list of
  these calls in program order (`locks_...`).
-/

namespace Bayes

/-! ## Run-time failures and float64 -/

/-- The run-time panics the program can raise. -/
inductive GoPanic where
  | indexOutOfRange
  deriving DecidableEq, Repr

/-- The float64 operations used by the program. -/
structure Float64Ops (F : Type) where
  /-- The conversion `float64(n)` of an `int`. -/
  ofInt : Int → F
  /-- Addition `a + b`. -/
  add : F → F → F
  /-- Subtraction `a - b`. -/
  sub : F → F → F
  /-- Multiplication `a * b`. -/
  mul : F → F → F
  /-- Division `a / b`. -/
  div : F → F → F
  /-- The natural logarithm `math.Log`. -/
  log : F → F
  /-- The comparison `a > b`. -/
  gt : F → F → Bool

/-- Slice indexing `xs[i]`, which panics when `i` is out of range. -/
def index {α : Type} (xs : List α) (i : Nat) : Except GoPanic α :=
  match xs[i]? with
  | some x => .ok x
  | none => .error .indexOutOfRange

/-! ## common.go: Set -/

/-- Iteration order of `range` over a map: some enumeration of the keys. -/
structure MapOrder where
  /-- The order in which the keys are visited. -/
  iter : List String → List String
  /-- Every key is visited exactly once. -/
  perm : ∀ keys, (iter keys).Perm keys

/-- The assignment `m[k] = true`. -/
def mapSet (m : List String) (k : String) : List String :=
  if k ∈ m then m else m ++ [k]

/-- The statement `delete(m, k)`. -/
def mapDelete (m : List String) (k : String) : List String :=
  m.filter (fun e => e ≠ k)

/-- The type `Set`: the keys of the field `m`. -/
structure Set where
  m : List String
  deriving Repr

/-- The method `Add`. -/
def Set.Add (s : Set) (items : List String) : Set :=
  ⟨items.foldl mapSet s.m⟩

/-- The function `New`. -/
def New (items : List String) : Set :=
  (⟨[]⟩ : Set).Add items

/-- The method `Duplicate`. -/
def Set.Duplicate (o : MapOrder) (s : Set) : Set :=
  ⟨(o.iter s.m).foldl mapSet []⟩

/-- The library function `sort.Strings`: the ascending rearrangement. -/
def sortStrings (list : List String) : List String :=
  list.insertionSort (fun a b => a ≤ b)

/-- The method `SortedList`. -/
def Set.SortedList (o : MapOrder) (s : Set) : List String :=
  sortStrings ((o.iter s.m).foldl (fun list item => list ++ [item]) [])

/-- The method `Remove`. -/
def Set.Remove (s : Set) (items : List String) : Set :=
  ⟨items.foldl mapDelete s.m⟩

/-- The method `Has`: the loop returns `false` at the first item that is not a key. -/
def Set.Has (s : Set) : List String → Bool
  | [] => true
  | v :: items => if ¬ (v ∈ s.m) then false else s.Has items

/-- The method `Empty`. -/
def Set.Empty (s : Set) : Bool :=
  decide (s.m.length = 0)

/-- The loop `for e := range set.m { r.m[e] = true }`. -/
def mergeInto (o : MapOrder) (r set : Set) : Set :=
  (o.iter set.m).foldl (fun r e => ⟨mapSet r.m e⟩) r

/-- The loop `for e := range set.m { delete(r.m, e) }`. -/
def deleteFrom (o : MapOrder) (r set : Set) : Set :=
  (o.iter set.m).foldl (fun r e => ⟨mapDelete r.m e⟩) r

/-- The loop `for e := range r.m { if _, ok := set.m[e]; !ok { delete(r.m, e) } }`. -/
def keepIn (o : MapOrder) (r set : Set) : Set :=
  (o.iter r.m).foldl (fun r e => if ¬ (e ∈ set.m) then ⟨mapDelete r.m e⟩ else r) r

/-- The closing lines of the methods: `s.m = map[string]bool{}` and the copy of `r` into
`s`; the result is the receiver afterwards. -/
def commit (o : MapOrder) (r : Set) : Set :=
  ⟨(o.iter r.m).foldl mapSet []⟩

/-- The method `Union`; the result is the receiver afterwards. -/
def Set.Union (o : MapOrder) (s : Set) (sets : List Set) : Set :=
  let r := s.Duplicate o
  let r := sets.foldl (fun r set => mergeInto o r set) r
  commit o r

/-- The function `Union`. -/
def Union (o : MapOrder) (sets : List Set) : Set :=
  match sets with
  | [] => New []
  | [s] => s
  | s0 :: rest =>
    let r := s0.Duplicate o
    rest.foldl (fun r set => mergeInto o r set) r

/-- The method `Minus`; the result is the receiver afterwards. -/
def Set.Minus (o : MapOrder) (s : Set) (sets : List Set) : Set :=
  let r := s.Duplicate o
  let r := sets.foldl (fun r set => deleteFrom o r set) r
  commit o r

/-- The function `Minus`. -/
def Minus (o : MapOrder) (sets : List Set) : Set :=
  match sets with
  | [] => New []
  | [s] => s
  | s0 :: rest =>
    let r := s0.Duplicate o
    rest.foldl (fun r set => deleteFrom o r set) r

/-- The method `Intersect`; the result is the receiver afterwards. -/
def Set.Intersect (o : MapOrder) (s : Set) (sets : List Set) : Set :=
  let r := s.Duplicate o
  let r := sets.foldl (fun r set => keepIn o r set) r
  commit o r

/-- The function `Intersect`. -/
def Intersect (o : MapOrder) (sets : List Set) : Set :=
  match sets with
  | [] => New []
  | [s] => s
  | s0 :: rest =>
    let r := s0.Duplicate o
    rest.foldl (fun r set => keepIn o r set) r

/-- The method `Complement`; the result is the receiver afterwards. -/
def Set.Complement (o : MapOrder) (s : Set) (full : Set) : Set :=
  let r := full.Duplicate o
  let r := deleteFrom o r s
  commit o r

/-- The function `Complement`. -/
def Complement (o : MapOrder) (sub full : Set) : Set :=
  let r := full.Duplicate o
  deleteFrom o r sub

/-- Two sets with the same elements. -/
def sameElements (a b : Set) : Prop :=
  ∀ t, t ∈ a.m ↔ t ∈ b.m

/-- A mutating call on a `Set`: `Add(items...)` or `Remove(items...)`. -/
inductive SetOp where
  | add (items : List String)
  | remove (items : List String)
  deriving DecidableEq, Repr

/-- The receiver after one mutating call. -/
def applyOp (s : Set) : SetOp → Set
  | .add items => s.Add items
  | .remove items => s.Remove items

/-- The set reached by `New(init...)` followed by the calls `ops`, in order. -/
def runOps (init : List String) (ops : List SetOp) : Set :=
  ops.foldl applyOp (New init)

/-- Whether the token `t` is an element after `New(init...)` and the calls `ops`: it is one
after it was given to `New` or added, until it is removed. -/
def isElement (init : List String) (ops : List SetOp) (t : String) : Bool :=
  ops.foldl
    (fun present op =>
      match op with
      | .add items => present || decide (t ∈ items)
      | .remove items => present && !decide (t ∈ items))
    (decide (t ∈ init))

/-! ## common.go: the locks an operation takes -/

/-- A call of `Lock` or `Unlock` on the mutex of the `Set` instance `inst`. -/
inductive LockEvent where
  | lock (inst : Nat)
  | unlock (inst : Nat)
  deriving DecidableEq, Repr

/-- The lock calls of `Duplicate` on the instance `s`: `s.Lock()`, and the deferred
`s.Unlock()` at the return.  The copy `r` is never locked. -/
def locks_Duplicate (s : Nat) : List LockEvent :=
  [.lock s, .unlock s]

/-- The lock calls of `New`, which calls `Add` on the instance it creates. -/
def locks_New (fresh : Nat) : List LockEvent :=
  [.lock fresh, .unlock fresh]

/-- The lock calls of a loop `for _, set := range sets { set.Lock(); ...; set.Unlock() }`. -/
def locks_each (sets : List Nat) : List LockEvent :=
  sets.foldl (fun trace set => trace ++ [.lock set, .unlock set]) []

/-- The lock calls of the method `Union` on the receiver `s`. -/
def locks_Set_Union (s : Nat) (sets : List Nat) : List LockEvent :=
  locks_Duplicate s ++ locks_each sets ++ [.lock s, .unlock s]

/-- The lock calls of the function `Union`; `fresh` is the instance `New` creates. -/
def locks_Union (fresh : Nat) (sets : List Nat) : List LockEvent :=
  match sets with
  | [] => locks_New fresh
  | [_] => []
  | s0 :: rest => locks_Duplicate s0 ++ locks_each rest

/-- The lock calls of the method `Minus` on the receiver `s`. -/
def locks_Set_Minus (s : Nat) (sets : List Nat) : List LockEvent :=
  locks_Duplicate s ++ locks_each sets ++ [.lock s, .unlock s]

/-- The lock calls of the method `Intersect` on the receiver `s`. -/
def locks_Set_Intersect (s : Nat) (sets : List Nat) : List LockEvent :=
  locks_Duplicate s ++ locks_each sets ++ [.lock s, .unlock s]

/-- The lock calls of the method `Complement` on the receiver `s`. -/
def locks_Set_Complement (s full : Nat) : List LockEvent :=
  locks_Duplicate full ++ [.lock s, .unlock s]

/-- The lock calls of the function `Complement`. -/
def locks_Complement (sub full : Nat) : List LockEvent :=
  locks_Duplicate full ++ [.lock sub, .unlock sub]

/-- The instances whose lock the caller holds after one more lock call. -/
def heldAfter (held : List Nat) : LockEvent → List Nat
  | .lock inst => inst :: held
  | .unlock inst => held.erase inst

/-- The instances whose lock the caller holds after the calls of `trace`. -/
def heldAtEnd (trace : List LockEvent) (held : List Nat) : List Nat :=
  trace.foldl heldAfter held

/-- At no point of `trace`, started holding `held`, does the caller hold two locks. -/
def neverTwoLocks : List LockEvent → List Nat → Bool
  | [], held => decide (held.length ≤ 1)
  | e :: trace, held => decide (held.length ≤ 1) && neverTwoLocks trace (heldAfter held e)

/-! ## bayes.go: vocabulary and vectors -/

/-- The function `CreateUnionList`. -/
def CreateUnionList (o : MapOrder) (items : List (List String)) : List String :=
  let s := New []
  let r := s.Duplicate o
  let r := items.foldl (fun r set => set.foldl (fun r e => r.Add [e]) r) r
  r.SortedList o

/-- The function `Set2Vec`. -/
def Set2Vec (union_arr : List String) (input_arr : List String) : List Int :=
  let returnVec := (List.range union_arr.length).foldl (fun vec _ => vec ++ [0]) []
  input_arr.foldl
    (fun returnVec v =>
      union_arr.enum.foldl
        (fun returnVec kv => if v = kv.2 then returnVec.set kv.1 1 else returnVec)
        returnVec)
    returnVec

/-- The map order that visits the keys in insertion order. -/
def insertionOrder : MapOrder := ⟨id, fun _ => List.Perm.refl _⟩

/-- The map order that visits the keys in reverse insertion order. -/
def reverseOrder : MapOrder := ⟨List.reverse, fun keys => List.reverse_perm keys⟩

/-! ## common.go: numeric helpers -/

/-- The function `sum`. -/
def sum (arr : List Int) : Int :=
  arr.foldl (fun i v => i + v) 0

/-- The function `sum_f`. -/
def sum_f {F : Type} (ops : Float64Ops F) (arr : List F) : F :=
  arr.foldl (fun i v => ops.add i v) (ops.ofInt 0)

/-- The function `ones`. -/
def ones (inlen : Nat) : List Int :=
  (List.range inlen).foldl (fun a _ => a ++ [1]) []

/-- The function `plus_arr`: `b_arr[i]` panics when `b_arr` is the shorter one. -/
def plus_arr (a_arr b_arr : List Int) : Except GoPanic (List Int) :=
  (List.range a_arr.length).foldlM
    (fun c_arr i => do
      let a ← index a_arr i
      let b ← index b_arr i
      pure (c_arr ++ [a + b]))
    []

/-- The function `division_arr`. -/
def division_arr {F : Type} (ops : Float64Ops F) (a_arr : List Int) (b_arr : Int) : List F :=
  a_arr.foldl (fun c_arr a => c_arr ++ [ops.log (ops.div (ops.ofInt a) (ops.ofInt b_arr))]) []

/-- The function `multiplication_arr`: `b_arr[i]` panics when `b_arr` is the shorter one. -/
def multiplication_arr {F : Type} (ops : Float64Ops F) (a_arr : List Int) (b_arr : List F) :
    Except GoPanic (List F) :=
  (List.range a_arr.length).foldlM
    (fun c_arr i => do
      let a ← index a_arr i
      let b ← index b_arr i
      pure (c_arr ++ [ops.mul (ops.ofInt a) b]))
    []

/-! ## bayes.go: training and classification -/

/-- The integer variables of `MultinomialNB`. -/
structure Counts where
  p_Num0 : List Int
  p_lap0 : Int
  p_Num1 : List Int
  p_lap1 : Int
  deriving DecidableEq, Repr

/-- The body of the `for` loop of `MultinomialNB`, at index `i`. -/
def trainStep (train_nb_arr : List (List Int)) (train_category : List Int)
    (acc : Counts) (i : Nat) : Except GoPanic Counts := do
  let c ← index train_category i
  let v ← index train_nb_arr i
  if c = 0 then
    let n ← plus_arr acc.p_Num0 v
    pure { acc with p_Num0 := n, p_lap0 := acc.p_lap0 + sum v }
  else
    let n ← plus_arr acc.p_Num1 v
    pure { acc with p_Num1 := n, p_lap1 := acc.p_lap1 + sum v }

/-- The counting part of `MultinomialNB`: the integer variables when the loop ends. -/
def trainCounts (train_nb_arr : List (List Int)) (train_category : List Int) :
    Except GoPanic Counts := do
  let numTrainDocs := train_nb_arr.length
  let first ← index train_nb_arr 0
  let numDoc := first.length
  (List.range numTrainDocs).foldlM (trainStep train_nb_arr train_category)
    ⟨ones numDoc, 2, ones numDoc, 2⟩

/-- The function `MultinomialNB`. -/
def MultinomialNB {F : Type} (ops : Float64Ops F) (train_nb_arr : List (List Int))
    (train_category : List Int) : Except GoPanic (List F × List F × F) := do
  let acc ← trainCounts train_nb_arr train_category
  let p_pro := ops.div (ops.ofInt (sum train_category)) (ops.ofInt train_category.length)
  pure (division_arr ops acc.p_Num0 acc.p_lap0, division_arr ops acc.p_Num1 acc.p_lap1, p_pro)

/-- The function `ClassNB`. -/
def ClassNB {F : Type} (ops : Float64Ops F) (doc : List Int) (p_v0 p_v1 : List F) (p_p : F) :
    Except GoPanic Int := do
  let m0 ← multiplication_arr ops doc p_v0
  let p0 := ops.add (sum_f ops m0) (ops.log (ops.sub (ops.ofInt 1) p_p))
  let m1 ← multiplication_arr ops doc p_v1
  let p1 := ops.add (sum_f ops m1) (ops.log p_p)
  if ops.gt p1 p0 then pure 1 else pure 0

/-! ## The same, with the 64-bit addition of Go -/

/-- The value of an `int` after an addition: the result reduced to the 64-bit two's
complement range, from `-2^63` to `2^63 - 1`. -/
def wrapInt64 (x : Int) : Int :=
  (x + 9223372036854775808) % 18446744073709551616 - 9223372036854775808

/-- The function `sum`, with 64-bit addition. -/
def sum64 (arr : List Int) : Int :=
  arr.foldl (fun i v => wrapInt64 (i + v)) 0

/-- The function `plus_arr`, with 64-bit addition. -/
def plus_arr64 (a_arr b_arr : List Int) : Except GoPanic (List Int) :=
  (List.range a_arr.length).foldlM
    (fun c_arr i => do
      let a ← index a_arr i
      let b ← index b_arr i
      pure (c_arr ++ [wrapInt64 (a + b)]))
    []

/-- The body of the `for` loop of `MultinomialNB`, at index `i`, with 64-bit addition. -/
def trainStep64 (train_nb_arr : List (List Int)) (train_category : List Int)
    (acc : Counts) (i : Nat) : Except GoPanic Counts := do
  let c ← index train_category i
  let v ← index train_nb_arr i
  if c = 0 then
    let n ← plus_arr64 acc.p_Num0 v
    pure { acc with p_Num0 := n, p_lap0 := wrapInt64 (acc.p_lap0 + sum64 v) }
  else
    let n ← plus_arr64 acc.p_Num1 v
    pure { acc with p_Num1 := n, p_lap1 := wrapInt64 (acc.p_lap1 + sum64 v) }

/-- The counting part of `MultinomialNB`, with 64-bit addition. -/
def trainCounts64 (train_nb_arr : List (List Int)) (train_category : List Int) :
    Except GoPanic Counts := do
  let numTrainDocs := train_nb_arr.length
  let first ← index train_nb_arr 0
  let numDoc := first.length
  (List.range numTrainDocs).foldlM (trainStep64 train_nb_arr train_category)
    ⟨ones numDoc, 2, ones numDoc, 2⟩

/-- The function `MultinomialNB`, with 64-bit addition. -/
def MultinomialNB64 {F : Type} (ops : Float64Ops F) (train_nb_arr : List (List Int))
    (train_category : List Int) : Except GoPanic (List F × List F × F) := do
  let acc ← trainCounts64 train_nb_arr train_category
  let p_pro := ops.div (ops.ofInt (sum64 train_category)) (ops.ofInt train_category.length)
  pure (division_arr ops acc.p_Num0 acc.p_lap0, division_arr ops acc.p_Num1 acc.p_lap1, p_pro)

/-- The integer `x` is a value of Go's `int`: between `-2^63` and `2^63 - 1`. -/
def inInt64 (x : Int) : Prop :=
  -9223372036854775808 ≤ x ∧ x ≤ 9223372036854775807

instance (x : Int) : Decidable (inInt64 x) := by
  unfold inInt64
  infer_instance

/-- The four integer variables, each reduced to the 64-bit range. -/
def wrapCounts (acc : Counts) : Counts :=
  ⟨acc.p_Num0.map wrapInt64, wrapInt64 acc.p_lap0, acc.p_Num1.map wrapInt64,
    wrapInt64 acc.p_lap1⟩

/-! ## Interpretations of float64 -/

/-- The machine interpretation: IEEE 754 binary64, with the logarithm of the C library, which
can differ from Go's `math.Log` in the last bit.  It serves where a concrete interpretation is
needed and the conclusion does not depend on the values computed. -/
def machineOps : Float64Ops Float :=
  ⟨Float.ofInt, fun a b => a + b, fun a b => a - b, fun a b => a * b, fun a b => a / b,
    Float.log, fun a b => decide (a > b)⟩

/-- The exact interpretation: every operation is the one of the real numbers. -/
structure IsExactReal (ops : Float64Ops ℝ) : Prop where
  ofInt_eq : ∀ n, ops.ofInt n = (n : ℝ)
  add_eq : ∀ a b, ops.add a b = a + b
  sub_eq : ∀ a b, ops.sub a b = a - b
  mul_eq : ∀ a b, ops.mul a b = a * b
  div_eq : ∀ a b, ops.div a b = a / b
  log_eq : ∀ a, ops.log a = Real.log a
  gt_iff : ∀ a b, ops.gt a b = true ↔ a > b

/-- A finite binary64 value `m * 2^e`: `m = 0` and `e = 0`, or `2^52 ≤ |m| < 2^53`. -/
structure Binary64 where
  m : Int
  e : Int
  deriving DecidableEq, Repr

/-- The rational number a finite binary64 value stands for. -/
def Binary64.toRat (x : Binary64) : ℚ :=
  x.m * (2 : ℚ) ^ x.e

/-- The quotient `num / den` rounded to an integer, to nearest, ties to even. -/
def roundNearestEven (num den : Nat) : Nat :=
  let q := num / den
  let r := num % den
  if 2 * r < den then q
  else if 2 * r = den then (if q % 2 = 0 then q else q + 1)
  else q + 1

/-- The number of binary digits of `n`, counted with at most `fuel` halvings; `fuel = n`
is enough. -/
def bitLength : Nat → Nat → Nat
  | 0, _ => 0
  | fuel + 1, n => if n = 0 then 0 else bitLength fuel (n / 2) + 1

/-- The binary64 value nearest to `(a / den) * 2^e`, ties to even, negated when `negative`:
the quotient is scaled into `[2^52, 2^53)`, rounded to an integer, and renormalised when the
rounding carries to `2^53`.  The exponent is not bounded. -/
def roundTo53 (negative : Bool) (a den : Nat) (e : Int) : Binary64 :=
  if a = 0 ∨ den = 0 then ⟨0, 0⟩
  else
    let la := bitLength a a
    let lb := bitLength den den
    let a1 := a * 2 ^ (lb + 53 - la)
    let d1 := den * 2 ^ (la - (lb + 53))
    let s0 : Int := ((la - (lb + 53) : Nat) : Int) - ((lb + 53 - la : Nat) : Int)
    let d2 := if d1 * 2 ^ 53 ≤ a1 then 2 * d1 else d1
    let s : Int := if d1 * 2 ^ 53 ≤ a1 then s0 + 1 else s0
    let r := roundNearestEven a1 d2
    let m : Int := if r = 2 ^ 53 then 2 ^ 52 else r
    let s' : Int := if r = 2 ^ 53 then s + 1 else s
    ⟨if negative then -m else m, s' + e⟩

/-- The conversion `float64(n)` in binary64. -/
def Binary64.ofInt (n : Int) : Binary64 :=
  roundTo53 (decide (n < 0)) n.natAbs 1 0

/-- The exact sum of `a` and `sign * b` as an integer multiple of `2^(min a.e b.e)`,
rounded to binary64. -/
def Binary64.addSigned (sign : Int) (a b : Binary64) : Binary64 :=
  let e := min a.e b.e
  let t : Int := a.m * 2 ^ (a.e - e).toNat + sign * (b.m * 2 ^ (b.e - e).toNat)
  roundTo53 (decide (t < 0)) t.natAbs 1 e

/-- The product in binary64. -/
def Binary64.mul (a b : Binary64) : Binary64 :=
  roundTo53 (decide (a.m * b.m < 0)) (a.m * b.m).natAbs 1 (a.e + b.e)

/-- The quotient in binary64, for a divisor that is not zero. -/
def Binary64.div (a b : Binary64) : Binary64 :=
  roundTo53 (decide (a.m < 0) != decide (b.m < 0)) a.m.natAbs b.m.natAbs (a.e - b.e)

/-- The comparison `a > b` of two finite binary64 values. -/
def Binary64.gt (a b : Binary64) : Bool :=
  decide (a.m * 2 ^ (a.e - min a.e b.e).toNat > b.m * 2 ^ (b.e - min a.e b.e).toNat)

/-- The binary64 interpretation on finite values: every operation returns its exact result
rounded to 53 significant bits, to nearest, ties to even.  `math.Log` is the parameter `log`.
What binary64 answers with an infinity or a NaN (overflow, division by zero), the subnormal
range and the sign of zero are outside this interpretation; division by zero gives zero
here. -/
def binary64Ops (log : Binary64 → Binary64) : Float64Ops Binary64 :=
  ⟨Binary64.ofInt, Binary64.addSigned 1, Binary64.addSigned (-1), Binary64.mul, Binary64.div,
    log, Binary64.gt⟩

/-! ## The quantities the specification names -/

/-- The training vectors whose label satisfies `c`, in corpus order. -/
def labelled (c : Int → Bool) (vectors : List (List Int)) (labels : List Int) :
    List (List Int) :=
  ((vectors.zip labels).filter (fun p => c p.2)).map Prod.fst

/-- One plus the sum of entry `i` over the training vectors whose label satisfies `c`. -/
def specNum (c : Int → Bool) (vectors : List (List Int)) (labels : List Int) (i : Nat) : Int :=
  1 + ((labelled c vectors labels).map (fun v => v.getD i 0)).sum

/-- Two plus the sum of all entries of the training vectors whose label satisfies `c`. -/
def specTotal (c : Int → Bool) (vectors : List (List Int)) (labels : List Int) : Int :=
  2 + ((labelled c vectors labels).map List.sum).sum

/-- The score of the specification: the sum over `i`, in index order, of
`vector[i] * logProb[i]`, plus `bias`. -/
def specScore {F : Type} (ops : Float64Ops F) (vector : List Int) (logProb : List F)
    (bias : F) : F :=
  ops.add
    ((List.zipWith (fun d p => ops.mul (ops.ofInt d) p) vector logProb).foldl
      (fun acc x => ops.add acc x) (ops.ofInt 0))
    bias

/-- The integer variables of `MultinomialNB` as the specification gives them, for vectors of
length `m`: class 0 collects the labels equal to 0, class 1 all the others. -/
def countsOf (m : Nat) (vectors : List (List Int)) (labels : List Int) : Counts :=
  ⟨(List.range m).map (specNum (fun c => decide (c = 0)) vectors labels),
    specTotal (fun c => decide (c = 0)) vectors labels,
    (List.range m).map (specNum (fun c => decide (c ≠ 0)) vectors labels),
    specTotal (fun c => decide (c ≠ 0)) vectors labels⟩

/-! ## Lemmas on the map and on sorting -/

theorem mem_mapSet (m : List String) (k x : String) :
    x ∈ mapSet m k ↔ x ∈ m ∨ x = k := by
  unfold mapSet
  split
  · constructor
    · intro h; exact Or.inl h
    · rintro (h | h)
      · exact h
      · subst h; assumption
  · simp

theorem nodup_mapSet (m : List String) (k : String) (h : m.Nodup) :
    (mapSet m k).Nodup := by
  unfold mapSet
  split
  · exact h
  · rename_i hk
    rw [List.nodup_append]
    refine ⟨h, List.nodup_singleton k, ?_⟩
    intro a ha hb
    simp only [List.mem_singleton] at hb
    subst hb
    exact hk ha

theorem mem_foldl_mapSet (items m : List String) (x : String) :
    x ∈ items.foldl mapSet m ↔ x ∈ m ∨ x ∈ items := by
  induction items generalizing m with
  | nil => simp
  | cons a rest ih =>
    simp only [List.foldl_cons, ih, mem_mapSet, List.mem_cons]
    tauto

theorem nodup_foldl_mapSet (items m : List String) (h : m.Nodup) :
    (items.foldl mapSet m).Nodup := by
  induction items generalizing m with
  | nil => exact h
  | cons a rest ih => exact ih _ (nodup_mapSet m a h)

theorem foldl_append_singleton (l acc : List String) :
    l.foldl (fun list item => list ++ [item]) acc = acc ++ l := by
  induction l generalizing acc with
  | nil => simp
  | cons a rest ih => simp [ih]

theorem sortStrings_sorted (l : List String) :
    List.Sorted (fun a b => a ≤ b) (sortStrings l) :=
  List.sorted_insertionSort _ l

theorem sortStrings_perm (l : List String) : (sortStrings l).Perm l :=
  List.perm_insertionSort _ l

/-- The keys of the set built by the two loops of `CreateUnionList`. -/
theorem unionLoop_spec (items : List (List String)) (r : Set) (h : r.m.Nodup) :
    (items.foldl (fun r set => set.foldl (fun r e => r.Add [e]) r) r).m.Nodup ∧
    ∀ t, t ∈ (items.foldl (fun r set => set.foldl (fun r e => r.Add [e]) r) r).m ↔
      t ∈ r.m ∨ ∃ d ∈ items, t ∈ d := by
  induction items generalizing r with
  | nil => simp [h]
  | cons d rest ih =>
    have inner : ∀ (d : List String) (r : Set),
        (d.foldl (fun r e => r.Add [e]) r).m = d.foldl mapSet r.m := by
      intro d
      induction d with
      | nil => intro r; rfl
      | cons a xs ihd => intro r; simp only [List.foldl_cons]; rw [ihd]; rfl
    have hn : (d.foldl (fun r e => r.Add [e]) r).m.Nodup := by
      rw [inner]; exact nodup_foldl_mapSet d r.m h
    obtain ⟨h1, h2⟩ := ih _ hn
    refine ⟨h1, ?_⟩
    intro t
    simp only [List.foldl_cons]
    rw [h2 t, inner, mem_foldl_mapSet]
    simp only [List.mem_cons, exists_eq_or_imp]
    tauto

theorem createUnionList_spec (o : MapOrder) (items : List (List String)) :
    List.Sorted (fun a b => a ≤ b) (CreateUnionList o items) ∧
    (CreateUnionList o items).Nodup ∧
    ∀ t, t ∈ CreateUnionList o items ↔ ∃ d ∈ items, t ∈ d := by
  have hnew : (New []).m = [] := rfl
  have hdup : ((New []).Duplicate o).m = [] := by
    have hp := o.perm []
    simp only [Set.Duplicate, hnew, List.Perm.eq_nil hp, List.foldl_nil]
  have hspec := unionLoop_spec items ((New []).Duplicate o) (by rw [hdup]; exact List.nodup_nil)
  obtain ⟨hn, hm⟩ := hspec
  have hperm : (CreateUnionList o items).Perm
      (items.foldl (fun r set => set.foldl (fun r e => r.Add [e]) r) ((New []).Duplicate o)).m := by
    unfold CreateUnionList Set.SortedList
    simp only [foldl_append_singleton, List.nil_append]
    exact (sortStrings_perm _).trans (o.perm _)
  refine ⟨?_, ?_, ?_⟩
  · unfold CreateUnionList Set.SortedList
    exact sortStrings_sorted _
  · exact hperm.nodup_iff.2 hn
  · intro t
    rw [hperm.mem_iff, hm t, hdup]
    simp

theorem createUnionList_ext (o o' : MapOrder) (docs docs' : List (List String))
    (h : ∀ t, (∃ d ∈ docs, t ∈ d) ↔ ∃ d ∈ docs', t ∈ d) :
    CreateUnionList o docs = CreateUnionList o' docs' := by
  obtain ⟨s1, n1, m1⟩ := createUnionList_spec o docs
  obtain ⟨s2, n2, m2⟩ := createUnionList_spec o' docs'
  apply List.eq_of_perm_of_sorted _ s1 s2
  rw [List.perm_ext_iff_of_nodup n1 n2]
  intro t
  rw [m1, m2, h]


/-! ## Lemmas on the set operations -/

theorem mem_iter (o : MapOrder) (l : List String) (t : String) : t ∈ o.iter l ↔ t ∈ l :=
  (o.perm l).mem_iff

theorem mem_mapDelete (m : List String) (k x : String) :
    x ∈ mapDelete m k ↔ x ∈ m ∧ x ≠ k := by
  simp [mapDelete]

theorem mem_foldl_mapDelete (items m : List String) (x : String) :
    x ∈ items.foldl mapDelete m ↔ x ∈ m ∧ x ∉ items := by
  induction items generalizing m with
  | nil => simp
  | cons a rest ih =>
    simp only [List.foldl_cons, ih, mem_mapDelete, List.mem_cons, not_or]
    tauto

theorem mem_duplicate (o : MapOrder) (s : Set) (t : String) :
    t ∈ (s.Duplicate o).m ↔ t ∈ s.m := by
  simp [Set.Duplicate, mem_foldl_mapSet, mem_iter]

theorem mem_commit (o : MapOrder) (r : Set) (t : String) :
    t ∈ (commit o r).m ↔ t ∈ r.m := by
  simp [commit, mem_foldl_mapSet, mem_iter]

theorem mem_mergeInto (o : MapOrder) (r set : Set) (t : String) :
    t ∈ (mergeInto o r set).m ↔ t ∈ r.m ∨ t ∈ set.m := by
  have h : ∀ (l : List String) (r : Set),
      (l.foldl (fun r e => (⟨mapSet r.m e⟩ : Set)) r).m = l.foldl mapSet r.m := by
    intro l
    induction l with
    | nil => intro r; rfl
    | cons a xs ih => intro r; simp only [List.foldl_cons]; rw [ih]
  unfold mergeInto
  rw [h, mem_foldl_mapSet, mem_iter]

theorem mem_deleteFrom (o : MapOrder) (r set : Set) (t : String) :
    t ∈ (deleteFrom o r set).m ↔ t ∈ r.m ∧ t ∉ set.m := by
  have h : ∀ (l : List String) (r : Set),
      (l.foldl (fun r e => (⟨mapDelete r.m e⟩ : Set)) r).m = l.foldl mapDelete r.m := by
    intro l
    induction l with
    | nil => intro r; rfl
    | cons a xs ih => intro r; simp only [List.foldl_cons]; rw [ih]
  unfold deleteFrom
  rw [h, mem_foldl_mapDelete, mem_iter]

theorem mem_keepIn (o : MapOrder) (r set : Set) (t : String) :
    t ∈ (keepIn o r set).m ↔ t ∈ r.m ∧ t ∈ set.m := by
  have h : ∀ (l : List String) (r : Set),
      t ∈ (l.foldl (fun r e => if ¬ (e ∈ set.m) then (⟨mapDelete r.m e⟩ : Set) else r) r).m
        ↔ t ∈ r.m ∧ (t ∈ l → t ∈ set.m) := by
    intro l
    induction l with
    | nil => intro r; simp
    | cons a xs ih =>
      intro r
      simp only [List.foldl_cons]
      rw [ih]
      by_cases ha : a ∈ set.m
      · simp only [ha, not_true_eq_false, if_false, List.mem_cons]
        constructor
        · rintro ⟨h1, h2⟩
          refine ⟨h1, ?_⟩
          rintro (h3 | h3)
          · rw [h3]; exact ha
          · exact h2 h3
        · rintro ⟨h1, h2⟩
          exact ⟨h1, fun h3 => h2 (Or.inr h3)⟩
      · simp only [ha, not_false_eq_true, if_true, mem_mapDelete, List.mem_cons]
        constructor
        · rintro ⟨⟨h1, h2⟩, h3⟩
          refine ⟨h1, ?_⟩
          rintro (h4 | h4)
          · exact absurd h4 h2
          · exact h3 h4
        · rintro ⟨h1, h2⟩
          have hne : t ≠ a := by
            intro h3
            apply ha
            rw [← h3]
            exact h2 (Or.inl h3)
          exact ⟨⟨h1, hne⟩, fun h3 => h2 (Or.inr h3)⟩
  unfold keepIn
  rw [h, mem_iter]
  tauto

theorem mem_foldl_mergeInto (o : MapOrder) (sets : List Set) (r : Set) (t : String) :
    t ∈ (sets.foldl (fun r set => mergeInto o r set) r).m ↔ t ∈ r.m ∨ ∃ s ∈ sets, t ∈ s.m := by
  induction sets generalizing r with
  | nil => simp
  | cons a rest ih =>
    simp only [List.foldl_cons, ih, mem_mergeInto, List.mem_cons, exists_eq_or_imp]
    tauto

theorem mem_foldl_deleteFrom (o : MapOrder) (sets : List Set) (r : Set) (t : String) :
    t ∈ (sets.foldl (fun r set => deleteFrom o r set) r).m ↔ t ∈ r.m ∧ ∀ s ∈ sets, t ∉ s.m := by
  induction sets generalizing r with
  | nil => simp
  | cons a rest ih =>
    simp only [List.foldl_cons, ih, mem_deleteFrom, List.mem_cons, forall_eq_or_imp]
    tauto

theorem mem_foldl_keepIn (o : MapOrder) (sets : List Set) (r : Set) (t : String) :
    t ∈ (sets.foldl (fun r set => keepIn o r set) r).m ↔ t ∈ r.m ∧ ∀ s ∈ sets, t ∈ s.m := by
  induction sets generalizing r with
  | nil => simp
  | cons a rest ih =>
    simp only [List.foldl_cons, ih, mem_keepIn, List.mem_cons, forall_eq_or_imp]
    tauto

theorem mem_Union_two (o : MapOrder) (s0 s1 : Set) (rest : List Set) (t : String) :
    t ∈ (Union o (s0 :: s1 :: rest)).m ↔ ∃ s ∈ s0 :: s1 :: rest, t ∈ s.m := by
  simp only [Union, mem_foldl_mergeInto, mem_duplicate, List.mem_cons, exists_eq_or_imp]

theorem mem_Minus_two (o : MapOrder) (s0 s1 : Set) (rest : List Set) (t : String) :
    t ∈ (Minus o (s0 :: s1 :: rest)).m ↔ t ∈ s0.m ∧ ∀ s ∈ s1 :: rest, t ∉ s.m := by
  simp only [Minus, mem_foldl_deleteFrom, mem_duplicate]

theorem mem_Intersect_two (o : MapOrder) (s0 s1 : Set) (rest : List Set) (t : String) :
    t ∈ (Intersect o (s0 :: s1 :: rest)).m ↔ ∀ s ∈ s0 :: s1 :: rest, t ∈ s.m := by
  simp only [Intersect, mem_foldl_keepIn, mem_duplicate, List.mem_cons, forall_eq_or_imp]

theorem mem_Complement (o : MapOrder) (sub full : Set) (t : String) :
    t ∈ (Complement o sub full).m ↔ t ∈ full.m ∧ t ∉ sub.m := by
  simp only [Complement, mem_deleteFrom, mem_duplicate]

theorem mem_Set_Union (o : MapOrder) (s : Set) (sets : List Set) (t : String) :
    t ∈ (s.Union o sets).m ↔ t ∈ s.m ∨ ∃ x ∈ sets, t ∈ x.m := by
  simp only [Set.Union, mem_commit, mem_foldl_mergeInto, mem_duplicate]

theorem mem_Set_Minus (o : MapOrder) (s : Set) (sets : List Set) (t : String) :
    t ∈ (s.Minus o sets).m ↔ t ∈ s.m ∧ ∀ x ∈ sets, t ∉ x.m := by
  simp only [Set.Minus, mem_commit, mem_foldl_deleteFrom, mem_duplicate]

theorem mem_Set_Intersect (o : MapOrder) (s : Set) (sets : List Set) (t : String) :
    t ∈ (s.Intersect o sets).m ↔ t ∈ s.m ∧ ∀ x ∈ sets, t ∈ x.m := by
  simp only [Set.Intersect, mem_commit, mem_foldl_keepIn, mem_duplicate]

theorem mem_Set_Complement (o : MapOrder) (s full : Set) (t : String) :
    t ∈ (s.Complement o full).m ↔ t ∈ full.m ∧ t ∉ s.m := by
  simp only [Set.Complement, mem_commit, mem_deleteFrom, mem_duplicate]

theorem has_iff (s : Set) (items : List String) :
    s.Has items = true ↔ ∀ v ∈ items, v ∈ s.m := by
  induction items with
  | nil => simp [Set.Has]
  | cons a rest ih =>
    by_cases ha : a ∈ s.m
    · simp [Set.Has, ha, ih]
    · simp [Set.Has, ha]

theorem mem_runOps (init : List String) (ops : List SetOp) (t : String) :
    t ∈ (runOps init ops).m ↔ isElement init ops t = true := by
  unfold runOps isElement
  have h : ∀ (ops : List SetOp) (s : Set) (b : Bool), (t ∈ s.m ↔ b = true) →
      (t ∈ (ops.foldl applyOp s).m ↔
        ops.foldl
          (fun present op =>
            match op with
            | .add items => present || decide (t ∈ items)
            | .remove items => present && !decide (t ∈ items)) b = true) := by
    intro ops
    induction ops with
    | nil => intro s b hb; exact hb
    | cons op rest ih =>
      intro s b hb
      simp only [List.foldl_cons]
      apply ih
      cases op with
      | add items =>
        simp only [applyOp, Set.Add, mem_foldl_mapSet, hb, Bool.or_eq_true, decide_eq_true_eq]
      | remove items =>
        simp only [applyOp, Set.Remove, mem_foldl_mapDelete, hb, Bool.and_eq_true,
          Bool.not_eq_true', decide_eq_false_iff_not]
  apply h
  simp [New, Set.Add, mem_foldl_mapSet]

/-! ## Lemmas on `Set2Vec` -/

theorem zeros_eq (n : Nat) :
    (List.range n).foldl (fun (vec : List Int) _ => vec ++ [0]) [] = List.replicate n 0 := by
  induction n with
  | zero => rfl
  | succ n ih =>
    rw [List.range_succ, List.foldl_append, ih]
    simp [List.replicate_succ']

theorem set2Vec_inner (v : String) (V : List String) (n : Nat) (vec : List Int) (i : Nat) :
    ((V.enumFrom n).foldl
        (fun returnVec kv => if v = kv.2 then returnVec.set kv.1 1 else returnVec) vec)[i]?
      = if n ≤ i ∧ V[i - n]? = some v then (vec[i]?).map (fun _ => 1) else vec[i]? := by
  induction V generalizing n vec with
  | nil => simp
  | cons x xs ih =>
    rw [List.enumFrom_cons, List.foldl_cons, ih]
    by_cases hni : n = i
    · subst hni
      by_cases hv : v = x
      · subst hv
        simp [List.getElem?_set']
        rfl
      · have hv2 : ¬ x = v := fun h => hv h.symm
        simp [hv, hv2]
    · by_cases hlt : n + 1 ≤ i
      · obtain ⟨d, rfl⟩ : ∃ d, i = n + 1 + d := ⟨i - (n + 1), by omega⟩
        have e1 : n + 1 + d - (n + 1) = d := by omega
        have e2 : n + 1 + d - n = d + 1 := by omega
        have e3 : n ≤ n + 1 + d := by omega
        simp only [e1, e2, e3, le_refl, true_and, List.getElem?_cons_succ, Nat.le_add_right]
        by_cases hv : v = x
        · simp [hv, List.getElem?_set', hni]
        · simp [hv]
      · have h1 : ¬ n ≤ i := by omega
        simp only [hlt, h1, false_and, if_false]
        by_cases hv : v = x
        · simp [hv, List.getElem?_set', hni]
        · simp [hv]

theorem set2Vec_outer (V d : List String) (vec : List Int) (i : Nat) :
    (d.foldl
        (fun returnVec v =>
          V.enum.foldl
            (fun returnVec kv => if v = kv.2 then returnVec.set kv.1 1 else returnVec)
            returnVec)
        vec)[i]?
      = if ∃ t ∈ d, V[i]? = some t then (vec[i]?).map (fun _ => 1) else vec[i]? := by
  induction d generalizing vec with
  | nil => simp
  | cons a rest ih =>
    rw [List.foldl_cons, ih]
    unfold List.enum
    rw [set2Vec_inner]
    by_cases h1 : V[i]? = some a
    · cases hvi : vec[i]? <;> simp [h1]
    · by_cases h2 : ∃ t ∈ rest, V[i]? = some t
      · have h3 : ∃ t, (t = a ∨ t ∈ rest) ∧ V[i]? = some t := by
          obtain ⟨t, ht, he⟩ := h2
          exact ⟨t, Or.inr ht, he⟩
        simp [h1, h2, h3]
      · have h3 : ¬ ∃ t, (t = a ∨ t ∈ rest) ∧ V[i]? = some t := by
          rintro ⟨t, ht | ht, he⟩
          · subst ht; exact h1 he
          · exact h2 ⟨t, ht, he⟩
        simp [h1, h2, h3]

theorem set2Vec_getElem? (V d : List String) (i : Nat) :
    (Set2Vec V d)[i]? = (V[i]?).map (fun t => if t ∈ d then 1 else 0) := by
  unfold Set2Vec
  simp only [zeros_eq]
  rw [set2Vec_outer]
  by_cases hi : i < V.length
  · rw [List.getElem?_eq_getElem hi]
    by_cases hmem : V[i] ∈ d
    · have : ∃ t ∈ d, some V[i] = some t := ⟨_, hmem, rfl⟩
      simp [this, hmem, hi]
    · have : ¬ ∃ t ∈ d, some V[i] = some t := by
        rintro ⟨t, ht, he⟩
        simp only [Option.some.injEq] at he
        subst he
        exact hmem ht
      simp [this, hmem, hi]
  · have hn : V[i]? = none := List.getElem?_eq_none (by omega)
    simp [hn, hi]
    omega

theorem set2Vec_length (V d : List String) : (Set2Vec V d).length = V.length := by
  by_contra hne
  rcases Nat.lt_or_gt_of_ne hne with h | h
  · have h1 := set2Vec_getElem? V d (Set2Vec V d).length
    rw [List.getElem?_eq_none (le_refl _), List.getElem?_eq_getElem h] at h1
    simp at h1
  · have h1 := set2Vec_getElem? V d V.length
    rw [List.getElem?_eq_none (le_refl V.length), List.getElem?_eq_getElem h] at h1
    simp at h1

theorem set2Vec_congr (V d d' : List String) (h : ∀ t, t ∈ d ↔ t ∈ d') :
    Set2Vec V d = Set2Vec V d' := by
  apply List.ext_getElem?
  intro i
  rw [set2Vec_getElem?, set2Vec_getElem?]
  cases V[i]? with
  | none => rfl
  | some t => simp [h t]

theorem set2Vec_binary (V d : List String) (x : Int) (hx : x ∈ Set2Vec V d) :
    x = 0 ∨ x = 1 := by
  obtain ⟨i, hi⟩ := List.mem_iff_getElem?.1 hx
  rw [set2Vec_getElem?] at hi
  cases hv : V[i]? with
  | none => simp [hv] at hi
  | some t =>
    simp only [hv, Option.map_some', Option.some.injEq] at hi
    subst hi
    split
    · exact Or.inr rfl
    · exact Or.inl rfl

/-! ## Lemmas on the numeric helpers -/

theorem index_ok {α : Type} (xs : List α) (i : Nat) (h : i < xs.length) :
    index xs i = .ok xs[i] := by
  simp [index, List.getElem?_eq_getElem h]

theorem index_error {α : Type} (xs : List α) (i : Nat) (h : xs.length ≤ i) :
    index xs i = .error .indexOutOfRange := by
  simp [index, List.getElem?_eq_none h]

theorem foldlM_range_succ {σ : Type} (f : σ → Nat → Except GoPanic σ) (init : σ) (k : Nat) :
    (List.range (k + 1)).foldlM f init = (List.range k).foldlM f init >>= fun s => f s k := by
  rw [List.range_succ, List.foldlM_append]
  simp

theorem foldlM_range_error {σ : Type} (f : σ → Nat → Except GoPanic σ) (init : σ)
    (k n : Nat) (e : GoPanic) (hk : k < n)
    (h : (List.range k).foldlM f init >>= (fun s => f s k) = .error e) :
    (List.range n).foldlM f init = .error e := by
  obtain ⟨d, rfl⟩ : ∃ d, n = (k + 1) + d := ⟨n - (k + 1), by omega⟩
  induction d with
  | zero => rw [Nat.add_zero, foldlM_range_succ]; exact h
  | succ d ih =>
    rw [← Nat.add_assoc, foldlM_range_succ, ih (by omega)]
    rfl

theorem sum_eq (arr : List Int) : sum arr = arr.sum := by
  have h : ∀ (l : List Int) (a : Int), l.foldl (fun i v => i + v) a = a + l.sum := by
    intro l
    induction l with
    | nil => intro a; simp
    | cons x xs ih => intro a; simp [ih, add_assoc]
  simp [sum, h]

theorem ones_eq (n : Nat) : ones n = List.replicate n 1 := by
  unfold ones
  induction n with
  | zero => rfl
  | succ n ih =>
    rw [List.range_succ, List.foldl_append, ih]
    simp [List.replicate_succ']

theorem division_arr_eq {F : Type} (ops : Float64Ops F) (a_arr : List Int) (b_arr : Int) :
    division_arr ops a_arr b_arr
      = a_arr.map (fun a => ops.log (ops.div (ops.ofInt a) (ops.ofInt b_arr))) := by
  have h : ∀ (l : List Int) (acc : List F),
      l.foldl (fun c_arr a => c_arr ++ [ops.log (ops.div (ops.ofInt a) (ops.ofInt b_arr))]) acc
        = acc ++ l.map (fun a => ops.log (ops.div (ops.ofInt a) (ops.ofInt b_arr))) := by
    intro l
    induction l with
    | nil => intro acc; simp
    | cons x xs ih => intro acc; simp [ih]
  simp [division_arr, h]

theorem plus_arr_upto (a_arr b_arr : List Int) (k : Nat) (ha : k ≤ a_arr.length)
    (hb : k ≤ b_arr.length) :
    (List.range k).foldlM
      (fun c_arr i => do
        let a ← index a_arr i
        let b ← index b_arr i
        pure (c_arr ++ [a + b])) []
      = (.ok ((List.range k).map (fun i => a_arr.getD i 0 + b_arr.getD i 0)) :
          Except GoPanic (List Int)) := by
  induction k with
  | zero => rfl
  | succ k ih =>
    rw [foldlM_range_succ, ih (by omega) (by omega)]
    have h1 : k < a_arr.length := by omega
    have h2 : k < b_arr.length := by omega
    simp only [bind, Except.bind, index_ok a_arr k h1, index_ok b_arr k h2, pure, Except.pure,
      List.range_succ, List.map_append, List.map_cons, List.map_nil]
    simp [List.getD_eq_getElem?_getD, List.getElem?_eq_getElem h1, List.getElem?_eq_getElem h2]

theorem plus_arr_ok (a_arr b_arr : List Int) (h : a_arr.length ≤ b_arr.length) :
    plus_arr a_arr b_arr
      = .ok ((List.range a_arr.length).map (fun i => a_arr.getD i 0 + b_arr.getD i 0)) :=
  plus_arr_upto a_arr b_arr a_arr.length (le_refl _) h

theorem plus_arr_error (a_arr b_arr : List Int) (h : b_arr.length < a_arr.length) :
    plus_arr a_arr b_arr = .error .indexOutOfRange := by
  unfold plus_arr
  apply foldlM_range_error _ _ b_arr.length _ _ h
  rw [plus_arr_upto a_arr b_arr b_arr.length (by omega) (le_refl _)]
  simp only [bind, Except.bind, index_ok a_arr _ h, index_error b_arr _ (le_refl _)]

theorem zipWith_take_length {α β γ : Type} (f : α → β → γ) (a : List α) (b : List β) :
    List.zipWith f (a.take a.length) (b.take a.length) = List.zipWith f a b := by
  induction a generalizing b with
  | nil => simp
  | cons x xs ih =>
    cases b with
    | nil => simp
    | cons y ys =>
      have h := ih ys
      rw [List.take_length] at h
      simp [h]

theorem multiplication_arr_upto {F : Type} (ops : Float64Ops F) (a_arr : List Int)
    (b_arr : List F) (k : Nat) (ha : k ≤ a_arr.length) (hb : k ≤ b_arr.length) :
    (List.range k).foldlM
      (fun c_arr i => do
        let a ← index a_arr i
        let b ← index b_arr i
        pure (c_arr ++ [ops.mul (ops.ofInt a) b])) []
      = (.ok (List.zipWith (fun d p => ops.mul (ops.ofInt d) p) (a_arr.take k) (b_arr.take k)) :
          Except GoPanic (List F)) := by
  induction k with
  | zero => rfl
  | succ k ih =>
    rw [foldlM_range_succ, ih (by omega) (by omega)]
    have h1 : k < a_arr.length := by omega
    have h2 : k < b_arr.length := by omega
    simp only [bind, Except.bind, index_ok a_arr k h1, index_ok b_arr k h2, pure, Except.pure]
    rw [List.take_succ, List.take_succ (l := b_arr), List.getElem?_eq_getElem h1,
      List.getElem?_eq_getElem h2]
    simp only [Option.toList_some]
    rw [List.zipWith_append _ _ _ _ _
      (by simp [Nat.min_eq_left (Nat.le_of_lt h1), Nat.min_eq_left (Nat.le_of_lt h2)])]
    rfl

theorem multiplication_arr_ok {F : Type} (ops : Float64Ops F) (a_arr : List Int)
    (b_arr : List F) (h : a_arr.length ≤ b_arr.length) :
    multiplication_arr ops a_arr b_arr
      = .ok (List.zipWith (fun d p => ops.mul (ops.ofInt d) p) a_arr b_arr) := by
  unfold multiplication_arr
  rw [multiplication_arr_upto ops a_arr b_arr a_arr.length (le_refl _) h,
    zipWith_take_length]

theorem multiplication_arr_error {F : Type} (ops : Float64Ops F) (a_arr : List Int)
    (b_arr : List F) (h : b_arr.length < a_arr.length) :
    multiplication_arr ops a_arr b_arr = .error .indexOutOfRange := by
  unfold multiplication_arr
  apply foldlM_range_error _ _ b_arr.length _ _ h
  rw [multiplication_arr_upto ops a_arr b_arr b_arr.length (by omega) (le_refl _)]
  simp only [bind, Except.bind, index_ok a_arr _ h, index_error b_arr _ (le_refl _)]

theorem classNB_ok {F : Type} (ops : Float64Ops F) (doc : List Int) (p_v0 p_v1 : List F)
    (p_p : F) (h0 : doc.length ≤ p_v0.length) (h1 : doc.length ≤ p_v1.length) :
    ClassNB ops doc p_v0 p_v1 p_p
      = .ok (if ops.gt (specScore ops doc p_v1 (ops.log p_p))
              (specScore ops doc p_v0 (ops.log (ops.sub (ops.ofInt 1) p_p))) = true
            then 1 else 0) := by
  unfold ClassNB
  rw [multiplication_arr_ok ops doc p_v0 h0, multiplication_arr_ok ops doc p_v1 h1]
  simp only [bind, Except.bind, pure, Except.pure, specScore, sum_f]
  split <;> rfl

/-! ## Lemmas on the training loop -/

theorem labelled_take_succ (c : Int → Bool) (vs : List (List Int)) (cs : List Int) (k : Nat)
    (h1 : k < vs.length) (h2 : k < cs.length) :
    labelled c (vs.take (k + 1)) (cs.take (k + 1))
      = labelled c (vs.take k) (cs.take k) ++ (if c cs[k] then [vs[k]] else []) := by
  unfold labelled
  rw [List.take_succ, List.take_succ (l := cs), List.getElem?_eq_getElem h1,
    List.getElem?_eq_getElem h2]
  simp only [Option.toList_some]
  rw [List.zip_append (by simp [Nat.min_eq_left (Nat.le_of_lt h1), Nat.min_eq_left (Nat.le_of_lt h2)])]
  simp only [List.zip_cons_cons, List.zip_nil_right, List.filter_append, List.map_append]
  congr 1
  by_cases hc : c cs[k] = true <;> simp [List.filter_cons, hc]

theorem specNum_take_succ (c : Int → Bool) (vs : List (List Int)) (cs : List Int) (k : Nat)
    (h1 : k < vs.length) (h2 : k < cs.length) (i : Nat) :
    specNum c (vs.take (k + 1)) (cs.take (k + 1)) i
      = specNum c (vs.take k) (cs.take k) i + (if c cs[k] then vs[k].getD i 0 else 0) := by
  unfold specNum
  rw [labelled_take_succ c vs cs k h1 h2]
  by_cases hc : c cs[k] = true <;> simp [hc, add_assoc]

theorem specTotal_take_succ (c : Int → Bool) (vs : List (List Int)) (cs : List Int) (k : Nat)
    (h1 : k < vs.length) (h2 : k < cs.length) :
    specTotal c (vs.take (k + 1)) (cs.take (k + 1))
      = specTotal c (vs.take k) (cs.take k) + (if c cs[k] then vs[k].sum else 0) := by
  unfold specTotal
  rw [labelled_take_succ c vs cs k h1 h2]
  by_cases hc : c cs[k] = true <;> simp [hc, add_assoc]

theorem plus_arr_range_map (m : Nat) (f : Nat → Int) (v : List Int) (hv : v.length = m) :
    plus_arr ((List.range m).map f) v
      = .ok ((List.range m).map (fun i => f i + v.getD i 0)) := by
  rw [plus_arr_ok _ _ (by simp [hv])]
  simp only [List.length_map, List.length_range]
  congr 1
  apply List.map_congr_left
  intro i hi
  rw [List.mem_range] at hi
  simp [List.getD_eq_getElem?_getD, List.getElem?_map, List.getElem?_range hi]

theorem countsOf_nil (m : Nat) : countsOf m [] [] = ⟨ones m, 2, ones m, 2⟩ := by
  simp [countsOf, specNum, specTotal, labelled, ones_eq, List.eq_replicate_iff]

/-- The loop invariant of `MultinomialNB`: after `k` iterations the integer variables are the
counts of the first `k` vectors. -/
theorem trainLoop_upto (m : Nat) (vs : List (List Int)) (cs : List Int)
    (hm : ∀ v ∈ vs, v.length = m) (k : Nat) (h1 : k ≤ vs.length) (h2 : k ≤ cs.length) :
    (List.range k).foldlM (trainStep vs cs) ⟨ones m, 2, ones m, 2⟩
      = .ok (countsOf m (vs.take k) (cs.take k)) := by
  induction k with
  | zero => simp [countsOf_nil, pure, Except.pure]
  | succ k ih =>
    have hv : k < vs.length := by omega
    have hc : k < cs.length := by omega
    have hlen : vs[k].length = m := hm _ (List.getElem_mem hv)
    rw [foldlM_range_succ, ih (by omega) (by omega)]
    simp only [bind, Except.bind, trainStep, index_ok vs k hv, index_ok cs k hc]
    by_cases h0 : cs[k] = 0
    · simp only [h0, if_true]
      simp only [countsOf, plus_arr_range_map m _ vs[k] hlen, pure, Except.pure, sum_eq]
      simp [specNum_take_succ _ vs cs k hv hc, specTotal_take_succ _ vs cs k hv hc, h0]
    · simp only [h0, if_false]
      simp only [countsOf, plus_arr_range_map m _ vs[k] hlen, pure, Except.pure, sum_eq]
      simp [specNum_take_succ _ vs cs k hv hc, specTotal_take_succ _ vs cs k hv hc, h0]

theorem zip_take_length {α β : Type} (vs : List α) (cs : List β) :
    vs.zip (cs.take vs.length) = vs.zip cs := by
  induction vs generalizing cs with
  | nil => simp
  | cons v vs ih =>
    cases cs with
    | nil => simp
    | cons c cs => simp [ih]

theorem trainCounts_ok (m : Nat) (vs : List (List Int)) (cs : List Int) (hne : vs ≠ [])
    (hm : ∀ v ∈ vs, v.length = m) (hl : vs.length ≤ cs.length) :
    trainCounts vs cs = .ok (countsOf m vs cs) := by
  have hpos : 0 < vs.length := List.length_pos.2 hne
  have hfirst : vs[0].length = m := hm _ (List.getElem_mem hpos)
  unfold trainCounts
  simp only [bind, Except.bind, index_ok vs 0 hpos, hfirst]
  rw [trainLoop_upto m vs cs hm vs.length (le_refl _) hl, List.take_length]
  simp [countsOf, specNum, specTotal, labelled, zip_take_length]

/-- The closed form of `MultinomialNB` on a non-empty corpus of vectors of length `m` with at
least as many labels as vectors. -/
theorem multinomialNB_ok {F : Type} (ops : Float64Ops F) (m : Nat) (vs : List (List Int))
    (cs : List Int) (hne : vs ≠ []) (hm : ∀ v ∈ vs, v.length = m)
    (hl : vs.length ≤ cs.length) :
    MultinomialNB ops vs cs = .ok
      ((List.range m).map (fun i => ops.log (ops.div
          (ops.ofInt (specNum (fun c => decide (c = 0)) vs cs i))
          (ops.ofInt (specTotal (fun c => decide (c = 0)) vs cs)))),
        (List.range m).map (fun i => ops.log (ops.div
          (ops.ofInt (specNum (fun c => decide (c ≠ 0)) vs cs i))
          (ops.ofInt (specTotal (fun c => decide (c ≠ 0)) vs cs)))),
        ops.div (ops.ofInt (sum cs)) (ops.ofInt cs.length)) := by
  unfold MultinomialNB
  rw [trainCounts_ok m vs cs hne hm hl]
  simp only [bind, Except.bind, pure, Except.pure, division_arr_eq, countsOf, List.map_map]
  rfl

theorem trainCounts_error (m : Nat) (vs : List (List Int)) (cs : List Int)
    (hm : ∀ v ∈ vs, v.length = m) (hl : cs.length < vs.length) :
    trainCounts vs cs = .error .indexOutOfRange := by
  have hpos : 0 < vs.length := by omega
  unfold trainCounts
  simp only [bind, Except.bind, index_ok vs 0 hpos, hm _ (List.getElem_mem hpos)]
  apply foldlM_range_error _ _ cs.length _ _ hl
  rw [trainLoop_upto m vs cs hm cs.length (by omega) (le_refl _)]
  simp only [bind, Except.bind, trainStep, index_error cs _ (le_refl _)]

theorem labelled_one_eq (vs : List (List Int)) (cs : List Int)
    (h01 : ∀ c ∈ cs, c = 0 ∨ c = 1) :
    labelled (fun c => decide (c ≠ 0)) vs cs = labelled (fun c => decide (c = 1)) vs cs := by
  unfold labelled
  congr 1
  apply List.filter_congr
  intro p hp
  have hc : p.2 ∈ cs := (List.of_mem_zip hp).2
  rcases h01 _ hc with h | h <;> simp [h]

theorem sum_eq_count_one (cs : List Int) (h01 : ∀ c ∈ cs, c = 0 ∨ c = 1) :
    sum cs = (cs.count 1 : Nat) := by
  rw [sum_eq]
  induction cs with
  | nil => simp
  | cons c cs ih =>
    have ih2 := ih (fun x hx => h01 x (List.mem_cons_of_mem _ hx))
    rcases h01 c (List.mem_cons_self _ _) with h | h
    · subst h
      rw [List.sum_cons, ih2, List.count_cons_of_ne (by decide)]
      simp
    · subst h
      rw [List.sum_cons, ih2, List.count_cons_self]
      push_cast
      ring

theorem mem_of_mem_labelled (c : Int → Bool) (vs : List (List Int)) (cs : List Int)
    (v : List Int) (h : v ∈ labelled c vs cs) : v ∈ vs := by
  unfold labelled at h
  rw [List.mem_map] at h
  obtain ⟨p, hp, rfl⟩ := h
  exact (List.of_mem_zip (List.mem_filter.1 hp).1).1

theorem getD_le_sum (v : List Int) (hnn : ∀ x ∈ v, 0 ≤ x) (i : Nat) :
    0 ≤ v.getD i 0 ∧ v.getD i 0 ≤ v.sum := by
  induction v generalizing i with
  | nil => simp
  | cons x xs ih =>
    have hx : 0 ≤ x := hnn x (List.mem_cons_self _ _)
    have hxs : ∀ y ∈ xs, 0 ≤ y := fun y hy => hnn y (List.mem_cons_of_mem _ hy)
    have hs : 0 ≤ xs.sum := List.sum_nonneg hxs
    cases i with
    | zero =>
      simp only [List.getD_cons_zero, List.sum_cons]
      omega
    | succ i =>
      obtain ⟨h1, h2⟩ := ih hxs i
      simp only [List.getD_cons_succ, List.sum_cons]
      omega

theorem column_le_total (L : List (List Int)) (hnn : ∀ v ∈ L, ∀ x ∈ v, 0 ≤ x) (i : Nat) :
    0 ≤ (L.map (fun v => v.getD i 0)).sum ∧
    (L.map (fun v => v.getD i 0)).sum ≤ (L.map List.sum).sum := by
  induction L with
  | nil => simp
  | cons v vs ih =>
    obtain ⟨h1, h2⟩ := ih (fun w hw => hnn w (List.mem_cons_of_mem _ hw))
    obtain ⟨h3, h4⟩ := getD_le_sum v (hnn v (List.mem_cons_self _ _)) i
    simp only [List.map_cons, List.sum_cons]
    omega

/-- With non-negative entries, `0 < num_c[i] < total_c`. -/
theorem specNum_bounds (c : Int → Bool) (vs : List (List Int)) (cs : List Int)
    (hnn : ∀ v ∈ vs, ∀ x ∈ v, 0 ≤ x) (i : Nat) :
    0 < specNum c vs cs i ∧ specNum c vs cs i < specTotal c vs cs := by
  have h := column_le_total (labelled c vs cs)
    (fun v hv => hnn v (mem_of_mem_labelled c vs cs v hv)) i
  unfold specNum specTotal
  omega

theorem exp_log_ratio (n t : Int) (h1 : 0 < n) (h2 : n < t) :
    Real.exp (Real.log ((n : ℝ) / (t : ℝ))) = (n : ℝ) / (t : ℝ) ∧
    0 < (n : ℝ) / (t : ℝ) ∧ (n : ℝ) / (t : ℝ) < 1 := by
  have hn : (0 : ℝ) < (n : ℝ) := by exact_mod_cast h1
  have hnt : (n : ℝ) < (t : ℝ) := by exact_mod_cast h2
  have ht : (0 : ℝ) < (t : ℝ) := lt_trans hn hnt
  have hpos : 0 < (n : ℝ) / (t : ℝ) := div_pos hn ht
  exact ⟨Real.exp_log hpos, hpos, (div_lt_one ht).2 hnt⟩

theorem getD_range_map (m : Nat) (g : Nat → ℝ) (i : Nat) (hi : i < m) :
    ((List.range m).map g).getD i 0 = g i := by
  simp [List.getD_eq_getElem?_getD, List.getElem?_map, List.getElem?_range hi]

theorem createUnionList_eq_of (o : MapOrder) (docs : List (List String)) (L : List String)
    (hs : List.Sorted (fun a b => a ≤ b) L) (hn : L.Nodup)
    (hmem : ∀ t, t ∈ L ↔ ∃ d ∈ docs, t ∈ d) :
    CreateUnionList o docs = L := by
  obtain ⟨s1, n1, m1⟩ := createUnionList_spec o docs
  apply List.eq_of_perm_of_sorted _ s1 hs
  rw [List.perm_ext_iff_of_nodup n1 hn]
  intro t
  rw [m1, hmem]

theorem train_example {F : Type} (ops : Float64Ops F) :
    MultinomialNB ops [[1, 0, 1, 1, 0], [0, 1, 0, 0, 1]] [0, 1] = .ok
      ([ops.log (ops.div (ops.ofInt 2) (ops.ofInt 5)),
        ops.log (ops.div (ops.ofInt 1) (ops.ofInt 5)),
        ops.log (ops.div (ops.ofInt 2) (ops.ofInt 5)),
        ops.log (ops.div (ops.ofInt 2) (ops.ofInt 5)),
        ops.log (ops.div (ops.ofInt 1) (ops.ofInt 5))],
       [ops.log (ops.div (ops.ofInt 1) (ops.ofInt 4)),
        ops.log (ops.div (ops.ofInt 2) (ops.ofInt 4)),
        ops.log (ops.div (ops.ofInt 1) (ops.ofInt 4)),
        ops.log (ops.div (ops.ofInt 1) (ops.ofInt 4)),
        ops.log (ops.div (ops.ofInt 2) (ops.ofInt 4))],
       ops.div (ops.ofInt 1) (ops.ofInt 2)) :=
  rfl

/-! ## Lemmas on the 64-bit addition -/

theorem wrapInt64_add_wrap (a b : Int) :
    wrapInt64 (wrapInt64 a + b) = wrapInt64 (a + b) := by
  unfold wrapInt64
  omega

theorem wrapInt64_add_wrap_wrap (a b : Int) :
    wrapInt64 (wrapInt64 a + wrapInt64 b) = wrapInt64 (a + b) := by
  unfold wrapInt64
  omega

theorem wrapInt64_of_inInt64 (x : Int) (h : inInt64 x) : wrapInt64 x = x := by
  unfold inInt64 at h
  unfold wrapInt64
  omega

theorem sum64_eq_wrap (arr : List Int) : sum64 arr = wrapInt64 (sum arr) := by
  have h : ∀ (l : List Int) (a : Int),
      l.foldl (fun i v => wrapInt64 (i + v)) (wrapInt64 a)
        = wrapInt64 (l.foldl (fun i v => i + v) a) := by
    intro l
    induction l with
    | nil => intro a; rfl
    | cons x xs ih =>
      intro a
      simp only [List.foldl_cons]
      rw [wrapInt64_add_wrap, ih]
  exact h arr 0

theorem plus_arr64_upto (a_arr b_arr : List Int) (k : Nat) (ha : k ≤ a_arr.length)
    (hb : k ≤ b_arr.length) :
    (List.range k).foldlM
      (fun c_arr i => do
        let a ← index a_arr i
        let b ← index b_arr i
        pure (c_arr ++ [wrapInt64 (a + b)])) []
      = (.ok ((List.range k).map (fun i => wrapInt64 (a_arr.getD i 0 + b_arr.getD i 0))) :
          Except GoPanic (List Int)) := by
  induction k with
  | zero => rfl
  | succ k ih =>
    rw [foldlM_range_succ, ih (by omega) (by omega)]
    have h1 : k < a_arr.length := by omega
    have h2 : k < b_arr.length := by omega
    simp only [bind, Except.bind, index_ok a_arr k h1, index_ok b_arr k h2, pure, Except.pure,
      List.range_succ, List.map_append, List.map_cons, List.map_nil]
    simp [List.getD_eq_getElem?_getD, List.getElem?_eq_getElem h1, List.getElem?_eq_getElem h2]

theorem plus_arr64_wrap (a_arr b_arr : List Int) :
    plus_arr64 (a_arr.map wrapInt64) b_arr
      = (plus_arr a_arr b_arr).map (fun l => l.map wrapInt64) := by
  by_cases h : a_arr.length ≤ b_arr.length
  · rw [plus_arr_ok a_arr b_arr h]
    unfold plus_arr64
    rw [plus_arr64_upto _ _ _ (le_refl _) (by simpa using h)]
    simp only [Except.map, List.length_map, List.map_map]
    congr 1
    apply List.map_congr_left
    intro i _
    simp only [Function.comp, List.getD_eq_getElem?_getD, List.getElem?_map]
    cases a_arr[i]? with
    | none =>
      simp only [Option.map_none', Option.getD_none]
    | some x =>
      simp only [Option.map_some', Option.getD_some]
      rw [wrapInt64_add_wrap]
  · have hlt : b_arr.length < a_arr.length := by omega
    rw [plus_arr_error a_arr b_arr hlt]
    unfold plus_arr64
    have hlt' : b_arr.length < (a_arr.map wrapInt64).length := by simpa using hlt
    apply foldlM_range_error _ _ b_arr.length _ _ hlt'
    rw [plus_arr64_upto _ b_arr b_arr.length (by omega) (le_refl _)]
    simp only [bind, Except.bind, index_ok _ _ hlt', index_error b_arr _ (le_refl _)]

theorem trainStep64_wrap (vs : List (List Int)) (cs : List Int) (acc : Counts) (i : Nat) :
    trainStep64 vs cs (wrapCounts acc) i = (trainStep vs cs acc i).map wrapCounts := by
  unfold trainStep64 trainStep
  cases hc : index cs i with
  | error e => rfl
  | ok c =>
    cases hv : index vs i with
    | error e => rfl
    | ok v =>
      simp only [bind, Except.bind]
      by_cases h0 : c = 0
      · simp only [h0, if_true, wrapCounts, plus_arr64_wrap]
        cases plus_arr acc.p_Num0 v with
        | error e => rfl
        | ok n =>
          simp only [Except.map, pure, Except.pure, sum64_eq_wrap, wrapInt64_add_wrap_wrap]
          rfl
      · simp only [h0, if_false, wrapCounts, plus_arr64_wrap]
        cases plus_arr acc.p_Num1 v with
        | error e => rfl
        | ok n =>
          simp only [Except.map, pure, Except.pure, sum64_eq_wrap, wrapInt64_add_wrap_wrap]
          rfl

theorem foldlM_trainStep64_wrap (vs : List (List Int)) (cs : List Int) (l : List Nat)
    (acc : Counts) :
    l.foldlM (trainStep64 vs cs) (wrapCounts acc)
      = (l.foldlM (trainStep vs cs) acc).map wrapCounts := by
  induction l generalizing acc with
  | nil => rfl
  | cons i rest ih =>
    simp only [List.foldlM_cons, bind, Except.bind]
    rw [trainStep64_wrap]
    cases trainStep vs cs acc i with
    | error e => rfl
    | ok acc' =>
      simp only [Except.map]
      exact ih acc'

/-- The 64-bit counting loop computes the counts of the unbounded one, each reduced to the
64-bit range; it panics exactly when the unbounded one does. -/
theorem trainCounts64_eq_map (vs : List (List Int)) (cs : List Int) :
    trainCounts64 vs cs = (trainCounts vs cs).map wrapCounts := by
  unfold trainCounts64 trainCounts
  cases index vs 0 with
  | error e => rfl
  | ok first =>
    simp only [bind, Except.bind]
    have hinit : (⟨ones first.length, 2, ones first.length, 2⟩ : Counts)
        = wrapCounts ⟨ones first.length, 2, ones first.length, 2⟩ := by
      simp only [wrapCounts, ones_eq, List.map_replicate]
      rfl
    rw [hinit, foldlM_trainStep64_wrap, ← hinit]

theorem multinomialNB64_ok {F : Type} (ops : Float64Ops F) (m : Nat) (vs : List (List Int))
    (cs : List Int) (hne : vs ≠ []) (hm : ∀ v ∈ vs, v.length = m)
    (hl : vs.length ≤ cs.length) :
    MultinomialNB64 ops vs cs = .ok
      ((List.range m).map (fun i => ops.log (ops.div
          (ops.ofInt (wrapInt64 (specNum (fun c => decide (c = 0)) vs cs i)))
          (ops.ofInt (wrapInt64 (specTotal (fun c => decide (c = 0)) vs cs))))),
        (List.range m).map (fun i => ops.log (ops.div
          (ops.ofInt (wrapInt64 (specNum (fun c => decide (c ≠ 0)) vs cs i)))
          (ops.ofInt (wrapInt64 (specTotal (fun c => decide (c ≠ 0)) vs cs))))),
        ops.div (ops.ofInt (sum64 cs)) (ops.ofInt cs.length)) := by
  unfold MultinomialNB64
  rw [trainCounts64_eq_map, trainCounts_ok m vs cs hne hm hl]
  simp only [Except.map, bind, Except.bind, pure, Except.pure, division_arr_eq, countsOf,
    wrapCounts, List.map_map]
  rfl

/-! ## Lemmas on the lock calls -/

theorem neverTwoLocks_append (t1 t2 : List LockEvent) (held : List Nat) :
    neverTwoLocks (t1 ++ t2) held
      = (neverTwoLocks t1 held && neverTwoLocks t2 (heldAtEnd t1 held)) := by
  induction t1 generalizing held with
  | nil =>
    cases t2 with
    | nil => simp [neverTwoLocks, heldAtEnd]
    | cons e rest =>
      simp only [List.nil_append, neverTwoLocks, heldAtEnd, List.foldl_nil]
      cases decide (held.length ≤ 1) <;> simp
  | cons e rest ih =>
    show (decide (held.length ≤ 1) && neverTwoLocks (rest ++ t2) (heldAfter held e))
      = ((decide (held.length ≤ 1) && neverTwoLocks rest (heldAfter held e))
          && neverTwoLocks t2 (heldAtEnd rest (heldAfter held e)))
    rw [ih, Bool.and_assoc]

theorem heldAtEnd_append (t1 t2 : List LockEvent) (held : List Nat) :
    heldAtEnd (t1 ++ t2) held = heldAtEnd t2 (heldAtEnd t1 held) := by
  simp [heldAtEnd, List.foldl_append]

theorem lock_unlock_free (inst : Nat) :
    neverTwoLocks [.lock inst, .unlock inst] [] = true ∧
    heldAtEnd [.lock inst, .unlock inst] [] = [] := by
  simp [neverTwoLocks, heldAtEnd, heldAfter]

theorem locks_each_free (sets : List Nat) :
    neverTwoLocks (locks_each sets) [] = true ∧ heldAtEnd (locks_each sets) [] = [] := by
  induction sets using List.reverseRecOn with
  | nil => simp [locks_each, neverTwoLocks, heldAtEnd]
  | append_singleton xs x ih =>
    have e : locks_each (xs ++ [x]) = locks_each xs ++ [.lock x, .unlock x] := by
      simp [locks_each, List.foldl_append]
    obtain ⟨h1, h2⟩ := ih
    obtain ⟨h3, h4⟩ := lock_unlock_free x
    rw [e, neverTwoLocks_append, heldAtEnd_append, h1, h2, h3, h4]
    exact ⟨rfl, rfl⟩

theorem locks_method_free (s : Nat) (sets : List Nat) :
    neverTwoLocks (locks_Duplicate s ++ locks_each sets ++ [.lock s, .unlock s]) [] = true := by
  obtain ⟨h1, h2⟩ := locks_each_free sets
  obtain ⟨h3, h4⟩ := lock_unlock_free s
  rw [neverTwoLocks_append, neverTwoLocks_append, heldAtEnd_append]
  simp only [locks_Duplicate, h1, h2, h3, h4, Bool.and_self]

/-! ## Lemmas on reordering and on distinct tokens -/

theorem set2Vec_eq_map (V d : List String) :
    Set2Vec V d = V.map (fun t => if t ∈ d then 1 else 0) := by
  apply List.ext_getElem?
  intro i
  rw [set2Vec_getElem?, List.getElem?_map]

theorem sum_indicator (V d : List String) :
    (V.map (fun t => if t ∈ d then (1 : Int) else 0)).sum = ((V.filter (fun t => t ∈ d)).length : Nat) := by
  induction V with
  | nil => simp
  | cons a rest ih =>
    by_cases ha : a ∈ d
    · simp only [List.map_cons, List.sum_cons, ha, if_true, ih, List.filter_cons, decide_True,
        List.length_cons]
      push_cast
      ring
    · simp only [List.map_cons, List.sum_cons, ha, if_false, ih, List.filter_cons,
        decide_False, zero_add]
      simp

theorem labelled_perm (c : Int → Bool) (vs vs' : List (List Int)) (cs cs' : List Int)
    (hp : (vs.zip cs).Perm (vs'.zip cs')) :
    (labelled c vs cs).Perm (labelled c vs' cs') :=
  (hp.filter _).map _

theorem countsOf_perm (m : Nat) (vs vs' : List (List Int)) (cs cs' : List Int)
    (hp : (vs.zip cs).Perm (vs'.zip cs')) :
    countsOf m vs cs = countsOf m vs' cs' := by
  have hn : ∀ c, specNum c vs cs = specNum c vs' cs' := by
    intro c
    funext i
    unfold specNum
    rw [((labelled_perm c vs vs' cs cs' hp).map _).sum_eq]
  have ht : ∀ c, specTotal c vs cs = specTotal c vs' cs' := by
    intro c
    unfold specTotal
    rw [((labelled_perm c vs vs' cs cs' hp).map _).sum_eq]
  simp only [countsOf, hn, ht]

theorem mem_docs_of_forall₂_perm (docs mid : List (List String))
    (h : List.Forall₂ List.Perm docs mid) (t : String) :
    (∃ d ∈ docs, t ∈ d) ↔ ∃ d ∈ mid, t ∈ d := by
  induction h with
  | nil => simp
  | cons hp _ ih =>
    simp only [List.mem_cons, exists_eq_or_imp, ih, hp.mem_iff]

/-! ## The claims -/

/-- C1, as the code behaves: on a non-empty corpus of vectors of equal length `m` with one
label, 0 or 1, per vector, `MultinomialNB` returns for each class `c` the vector whose entry
`i` is `ln(num_c[i] / total_c)`, where `num_c[i]` is one plus the sum of entry `i` over the
vectors labelled `c` and `total_c` is two plus the sum of all entries of the vectors labelled
`c`, both reduced to the 64-bit range of `int`; they are these sums themselves whenever the
sums lie in that range. -/
theorem multinomialNB64_logProb {F : Type} (ops : Float64Ops F) (m : Nat)
    (vs : List (List Int)) (cs : List Int) (hne : vs ≠ []) (hm : ∀ v ∈ vs, v.length = m)
    (hl : cs.length = vs.length) (h01 : ∀ c ∈ cs, c = 0 ∨ c = 1) :
    (∃ p_pro, MultinomialNB64 ops vs cs = .ok
      ((List.range m).map (fun i => ops.log (ops.div
          (ops.ofInt (wrapInt64 (specNum (fun c => decide (c = 0)) vs cs i)))
          (ops.ofInt (wrapInt64 (specTotal (fun c => decide (c = 0)) vs cs))))),
        (List.range m).map (fun i => ops.log (ops.div
          (ops.ofInt (wrapInt64 (specNum (fun c => decide (c = 1)) vs cs i)))
          (ops.ofInt (wrapInt64 (specTotal (fun c => decide (c = 1)) vs cs))))),
        p_pro)) ∧
    ((∀ i, i < m → inInt64 (specNum (fun c => decide (c = 0)) vs cs i) ∧
        inInt64 (specNum (fun c => decide (c = 1)) vs cs i)) →
      inInt64 (specTotal (fun c => decide (c = 0)) vs cs) →
      inInt64 (specTotal (fun c => decide (c = 1)) vs cs) →
      ∃ p_pro, MultinomialNB64 ops vs cs = .ok
        ((List.range m).map (fun i => ops.log (ops.div
            (ops.ofInt (specNum (fun c => decide (c = 0)) vs cs i))
            (ops.ofInt (specTotal (fun c => decide (c = 0)) vs cs)))),
          (List.range m).map (fun i => ops.log (ops.div
            (ops.ofInt (specNum (fun c => decide (c = 1)) vs cs i))
            (ops.ofInt (specTotal (fun c => decide (c = 1)) vs cs)))),
          p_pro)) := by
  have hok := multinomialNB64_ok ops m vs cs hne hm (le_of_eq hl.symm)
  simp only [specNum, specTotal, labelled_one_eq vs cs h01] at hok
  refine ⟨⟨ops.div (ops.ofInt (sum64 cs)) (ops.ofInt cs.length), ?_⟩, ?_⟩
  · simp only [specNum, specTotal]
    exact hok
  · intro hnum ht0 ht1
    refine ⟨ops.div (ops.ofInt (sum64 cs)) (ops.ofInt cs.length), ?_⟩
    rw [hok]
    have e0 : (List.range m).map (fun i => ops.log (ops.div
          (ops.ofInt (wrapInt64 (specNum (fun c => decide (c = 0)) vs cs i)))
          (ops.ofInt (wrapInt64 (specTotal (fun c => decide (c = 0)) vs cs)))))
        = (List.range m).map (fun i => ops.log (ops.div
          (ops.ofInt (specNum (fun c => decide (c = 0)) vs cs i))
          (ops.ofInt (specTotal (fun c => decide (c = 0)) vs cs)))) := by
      apply List.map_congr_left
      intro i hi
      rw [wrapInt64_of_inInt64 _ (hnum i (List.mem_range.1 hi)).1, wrapInt64_of_inInt64 _ ht0]
    have e1 : (List.range m).map (fun i => ops.log (ops.div
          (ops.ofInt (wrapInt64 (specNum (fun c => decide (c = 1)) vs cs i)))
          (ops.ofInt (wrapInt64 (specTotal (fun c => decide (c = 1)) vs cs)))))
        = (List.range m).map (fun i => ops.log (ops.div
          (ops.ofInt (specNum (fun c => decide (c = 1)) vs cs i))
          (ops.ofInt (specTotal (fun c => decide (c = 1)) vs cs)))) := by
      apply List.map_congr_left
      intro i hi
      rw [wrapInt64_of_inInt64 _ (hnum i (List.mem_range.1 hi)).2, wrapInt64_of_inInt64 _ ht1]
    simp only [specNum, specTotal] at e0 e1
    rw [e0, e1]
    rfl

/-- Witness of C1 as amended: the corpus `[[1,0],[0,1]]` with labels `[0,1]`, whose sums
lie in the 64-bit range. -/
theorem multinomialNB64_logProb_witness :
    ∃ p_pro, MultinomialNB64 machineOps [[1, 0], [0, 1]] [0, 1] = .ok
      ((List.range 2).map (fun i => machineOps.log (machineOps.div
          (machineOps.ofInt (specNum (fun c => decide (c = 0)) [[1, 0], [0, 1]] [0, 1] i))
          (machineOps.ofInt (specTotal (fun c => decide (c = 0)) [[1, 0], [0, 1]] [0, 1])))),
        (List.range 2).map (fun i => machineOps.log (machineOps.div
          (machineOps.ofInt (specNum (fun c => decide (c = 1)) [[1, 0], [0, 1]] [0, 1] i))
          (machineOps.ofInt (specTotal (fun c => decide (c = 1)) [[1, 0], [0, 1]] [0, 1])))),
        p_pro) :=
  (multinomialNB64_logProb machineOps 2 [[1, 0], [0, 1]] [0, 1] (by decide) (by decide)
    (by decide) (by decide)).2 (by decide) (by decide) (by decide)

/-- C1 as stated fails: on the corpus `[[2^63 - 1], [2^63 - 1]]` with labels `[0, 0]` the
code has `num_0 = [-1]` and `total_0 = 0` and returns `ln(float64(-1) / float64(0))`, where
one plus the sum is `2^64 - 1` and two plus the sum is `2^64`. -/
theorem multinomialNB_logProb_counterexample :
    trainCounts64 [[9223372036854775807], [9223372036854775807]] [0, 0]
      = .ok ⟨[-1], 0, [1], 2⟩ ∧
    MultinomialNB64 machineOps [[9223372036854775807], [9223372036854775807]] [0, 0] = .ok
      ([machineOps.log (machineOps.div (machineOps.ofInt (-1)) (machineOps.ofInt 0))],
        [machineOps.log (machineOps.div (machineOps.ofInt 1) (machineOps.ofInt 2))],
        machineOps.div (machineOps.ofInt 0) (machineOps.ofInt 2)) ∧
    specNum (fun c => decide (c = 0)) [[9223372036854775807], [9223372036854775807]] [0, 0] 0
      = 18446744073709551615 ∧
    specTotal (fun c => decide (c = 0)) [[9223372036854775807], [9223372036854775807]] [0, 0]
      = 18446744073709551616 :=
  ⟨rfl, rfl, by decide, by decide⟩

/-- C2: for `doc`, `p_v0`, `p_v1` of one length, `ClassNB` returns 1 exactly when
`score1 > score0` and 0 exactly when not, with `score0` the sum of `doc[i] * p_v0[i]` plus
`ln(1 - p_p)` and `score1` the sum of `doc[i] * p_v1[i]` plus `ln(p_p)`; equal scores give 0
(no value is greater than itself). -/
theorem classNB_iff_score {F : Type} (ops : Float64Ops F) (doc : List Int) (p_v0 p_v1 : List F)
    (p_p : F) (h0 : p_v0.length = doc.length) (h1 : p_v1.length = doc.length) :
    (ClassNB ops doc p_v0 p_v1 p_p = .ok 1 ↔
      ops.gt (specScore ops doc p_v1 (ops.log p_p))
        (specScore ops doc p_v0 (ops.log (ops.sub (ops.ofInt 1) p_p))) = true) ∧
    (ClassNB ops doc p_v0 p_v1 p_p = .ok 0 ↔
      ops.gt (specScore ops doc p_v1 (ops.log p_p))
        (specScore ops doc p_v0 (ops.log (ops.sub (ops.ofInt 1) p_p))) = false) ∧
    (specScore ops doc p_v1 (ops.log p_p)
        = specScore ops doc p_v0 (ops.log (ops.sub (ops.ofInt 1) p_p)) →
      ops.gt (specScore ops doc p_v0 (ops.log (ops.sub (ops.ofInt 1) p_p)))
        (specScore ops doc p_v0 (ops.log (ops.sub (ops.ofInt 1) p_p))) = false →
      ClassNB ops doc p_v0 p_v1 p_p = .ok 0) := by
  rw [classNB_ok ops doc p_v0 p_v1 p_p (le_of_eq h0.symm) (le_of_eq h1.symm)]
  refine ⟨?_, ?_, ?_⟩
  · split <;> simp_all
  · split <;> simp_all
  · intro he hirr
    rw [he, hirr]
    rfl

/-- Witness of C2: the vector `[1, 0]` against two vectors of two floats. -/
theorem classNB_iff_score_witness :
    (ClassNB machineOps [1, 0] [Float.ofInt 0, Float.ofInt 1] [Float.ofInt 1, Float.ofInt 0]
        (Float.ofInt 1) = .ok 1 ↔
      machineOps.gt
        (specScore machineOps [1, 0] [Float.ofInt 1, Float.ofInt 0]
          (machineOps.log (Float.ofInt 1)))
        (specScore machineOps [1, 0] [Float.ofInt 0, Float.ofInt 1]
          (machineOps.log (machineOps.sub (machineOps.ofInt 1) (Float.ofInt 1)))) = true) :=
  (classNB_iff_score machineOps [1, 0] [Float.ofInt 0, Float.ofInt 1]
    [Float.ofInt 1, Float.ofInt 0] (Float.ofInt 1) rfl rfl).1

/-- C3: `CreateUnionList` returns a list in ascending lexicographic order, without duplicates,
that contains a token exactly when the token occurs in one of the documents; this holds for
every order in which the map is traversed. -/
theorem createUnionList_sorted_nodup_mem (o : MapOrder) (items : List (List String)) :
    List.Sorted (fun a b => a ≤ b) (CreateUnionList o items) ∧
    (CreateUnionList o items).Nodup ∧
    ∀ t, t ∈ CreateUnionList o items ↔ ∃ d ∈ items, t ∈ d :=
  createUnionList_spec o items

/-- C4: `Set2Vec V d` has the length of `V`, and its entry `i` is 1 when the token `V[i]`
occurs in `d` and 0 otherwise; so every entry is 0 or 1, and dropping the repetitions of
tokens in `d` does not change the result. -/
theorem set2Vec_presence (V d : List String) :
    (Set2Vec V d).length = V.length ∧
    (∀ i : Nat, (Set2Vec V d)[i]? = (V[i]?).map (fun t => if t ∈ d then 1 else 0)) ∧
    (∀ x ∈ Set2Vec V d, x = 0 ∨ x = 1) ∧
    Set2Vec V d.dedup = Set2Vec V d :=
  ⟨set2Vec_length V d, set2Vec_getElem? V d, set2Vec_binary V d,
    set2Vec_congr V d.dedup d (fun _ => List.mem_dedup)⟩

/-- C5: reordering the tokens inside each document (`docs` to `mid`) and reordering the
documents (`mid` to `docs'`) leaves the output of `CreateUnionList` unchanged, whatever the
traversal orders of the map in the two runs. -/
theorem createUnionList_perm_invariant (o o' : MapOrder) (docs mid docs' : List (List String))
    (h1 : List.Forall₂ List.Perm docs mid) (h2 : mid.Perm docs') :
    CreateUnionList o docs = CreateUnionList o' docs' := by
  apply createUnionList_ext
  intro t
  rw [mem_docs_of_forall₂_perm docs mid h1 t]
  constructor
  · rintro ⟨d, hd, ht⟩
    exact ⟨d, h2.mem_iff.1 hd, ht⟩
  · rintro ⟨d, hd, ht⟩
    exact ⟨d, h2.mem_iff.2 hd, ht⟩

/-- Witness of C5: `[["b","a"],["c"]]` against `[["c"],["a","b"]]`. -/
theorem createUnionList_perm_invariant_witness :
    List.Forall₂ List.Perm [["b", "a"], ["c"]] [["a", "b"], ["c"]] ∧
    List.Perm [["a", "b"], ["c"]] [["c"], ["a", "b"]] ∧
    CreateUnionList insertionOrder [["b", "a"], ["c"]]
      = CreateUnionList reverseOrder [["c"], ["a", "b"]] :=
  ⟨List.Forall₂.cons (List.Perm.swap _ _ _) (List.Forall₂.cons (List.Perm.refl _) List.Forall₂.nil),
    List.Perm.swap _ _ _,
    createUnionList_perm_invariant insertionOrder reverseOrder _ _ _
      (List.Forall₂.cons (List.Perm.swap _ _ _)
        (List.Forall₂.cons (List.Perm.refl _) List.Forall₂.nil))
      (List.Perm.swap _ _ _)⟩

/-- C6, as the code behaves: on a non-empty corpus of equal-length vectors with one label,
0 or 1, per vector, the prior returned by `MultinomialNB` is the float64 quotient
`float64(k) / float64(n)` of the number `k` of labels equal to 1 by the number `n` of labels,
also with the 64-bit addition of `int`, `n` being a value of `int`; it is the rational number
`k / n` under exact arithmetic. -/
theorem multinomialNB_prior {F : Type} (ops : Float64Ops F) (m : Nat) (vs : List (List Int))
    (cs : List Int) (hne : vs ≠ []) (hm : ∀ v ∈ vs, v.length = m)
    (hl : cs.length = vs.length) (h01 : ∀ c ∈ cs, c = 0 ∨ c = 1) :
    (∃ p_Vect0 p_Vect1, MultinomialNB ops vs cs = .ok
      (p_Vect0, p_Vect1, ops.div (ops.ofInt (cs.count 1 : Nat)) (ops.ofInt (cs.length : Nat)))) ∧
    (∀ exact : Float64Ops ℝ, IsExactReal exact →
      ∃ p_Vect0 p_Vect1, MultinomialNB exact vs cs = .ok
        (p_Vect0, p_Vect1, (((cs.count 1 : ℚ) / (cs.length : ℚ) : ℚ) : ℝ))) ∧
    (cs.length ≤ 9223372036854775807 →
      ∃ p_Vect0 p_Vect1, MultinomialNB64 ops vs cs = .ok
        (p_Vect0, p_Vect1,
          ops.div (ops.ofInt (cs.count 1 : Nat)) (ops.ofInt (cs.length : Nat)))) := by
  refine ⟨?_, ?_, ?_⟩
  · have h := multinomialNB_ok ops m vs cs hne hm (le_of_eq hl.symm)
    rw [sum_eq_count_one cs h01] at h
    exact ⟨_, _, h⟩
  rotate_left
  · intro hlen
    have h := multinomialNB64_ok ops m vs cs hne hm (le_of_eq hl.symm)
    have hcount : (cs.count 1 : Int) ≤ (cs.length : Int) := by
      exact_mod_cast List.count_le_length 1 cs
    have hlen' : (cs.length : Int) ≤ 9223372036854775807 := by exact_mod_cast hlen
    have hpos : (0 : Int) ≤ (cs.count 1 : Nat) := Int.natCast_nonneg _
    have hs : sum64 cs = ((cs.count 1 : Nat) : Int) := by
      rw [sum64_eq_wrap, sum_eq_count_one cs h01]
      exact wrapInt64_of_inInt64 _ ⟨by omega, by omega⟩
    rw [hs] at h
    exact ⟨_, _, h⟩
  · intro exact hex
    have h := multinomialNB_ok exact m vs cs hne hm (le_of_eq hl.symm)
    have hp : exact.div (exact.ofInt (cs.count 1 : Nat)) (exact.ofInt (cs.length : Nat))
        = (((cs.count 1 : ℚ) / (cs.length : ℚ) : ℚ) : ℝ) := by
      rw [hex.div_eq, hex.ofInt_eq, hex.ofInt_eq]
      push_cast
      rfl
    rw [sum_eq_count_one cs h01, hp] at h
    exact ⟨_, _, h⟩

/-- Witness of C6 as amended: the corpus `[[1,0],[0,1],[1,1]]` with labels `[0,1,1]`. -/
theorem multinomialNB_prior_witness :
    ∃ p_Vect0 p_Vect1, MultinomialNB64 machineOps [[1, 0], [0, 1], [1, 1]] [0, 1, 1] = .ok
      (p_Vect0, p_Vect1,
        machineOps.div (machineOps.ofInt (([0, 1, 1] : List Int).count 1 : Nat))
          (machineOps.ofInt (([0, 1, 1] : List Int).length : Nat))) :=
  (multinomialNB_prior machineOps 2 [[1, 0], [0, 1], [1, 1]] [0, 1, 1] (by decide) (by decide)
    (by decide) (by decide)).2.2 (by decide)

/-- C6 as stated fails: for the labels `[0, 1, 1]` the prior returned in binary64 is
`6004799503160661 * 2^(-53)`, the float64 nearest to `2/3`, and not the rational `2/3`. -/
theorem multinomialNB_prior_counterexample :
    (∀ log : Binary64 → Binary64, ∃ p_Vect0 p_Vect1,
      MultinomialNB (binary64Ops log) [[1], [1], [1]] [0, 1, 1]
        = .ok (p_Vect0, p_Vect1, ⟨6004799503160661, -53⟩)) ∧
    Binary64.toRat ⟨6004799503160661, -53⟩
      ≠ ((([0, 1, 1] : List Int).count 1 : ℚ) / (([0, 1, 1] : List Int).length : ℚ)) := by
  constructor
  · intro log
    have h : MultinomialNB (binary64Ops log) [[1], [1], [1]] [0, 1, 1] = .ok
        ([log (Binary64.div (Binary64.ofInt 2) (Binary64.ofInt 3))],
          [log (Binary64.div (Binary64.ofInt 3) (Binary64.ofInt 4))],
          Binary64.div (Binary64.ofInt 2) (Binary64.ofInt 3)) := rfl
    have hq : Binary64.div (Binary64.ofInt 2) (Binary64.ofInt 3)
        = ⟨6004799503160661, -53⟩ := by decide
    rw [hq] at h
    exact ⟨_, _, h⟩
  · have hc : (([0, 1, 1] : List Int).count 1 : ℚ) = 2 := by
      have : ([0, 1, 1] : List Int).count 1 = 2 := by decide
      rw [this]
      norm_num
    rw [hc]
    norm_num [Binary64.toRat]

/-- C7: under exact arithmetic, on a non-empty corpus of vectors of equal length `m` with
entries 0 or 1 and one label, 0 or 1, per vector, `MultinomialNB` returns a prior in `[0,1]`,
and for each class and each index `i < m` the exponential of the returned entry is
`num_c[i] / total_c`, strictly between 0 and 1. -/
theorem multinomialNB_bounds (ops : Float64Ops ℝ) (hex : IsExactReal ops) (m : Nat)
    (vs : List (List Int)) (cs : List Int) (hne : vs ≠ []) (hm : ∀ v ∈ vs, v.length = m)
    (hl : cs.length = vs.length) (h01 : ∀ c ∈ cs, c = 0 ∨ c = 1)
    (hbin : ∀ v ∈ vs, ∀ x ∈ v, x = 0 ∨ x = 1) :
    ∃ p_Vect0 p_Vect1 p_pro, MultinomialNB ops vs cs = .ok (p_Vect0, p_Vect1, p_pro) ∧
      0 ≤ p_pro ∧ p_pro ≤ 1 ∧ p_Vect0.length = m ∧ p_Vect1.length = m ∧
      ∀ i, i < m →
        (Real.exp (p_Vect0.getD i 0)
            = (specNum (fun c => decide (c = 0)) vs cs i : ℝ)
              / (specTotal (fun c => decide (c = 0)) vs cs : ℝ) ∧
          0 < (specNum (fun c => decide (c = 0)) vs cs i : ℝ)
              / (specTotal (fun c => decide (c = 0)) vs cs : ℝ) ∧
          (specNum (fun c => decide (c = 0)) vs cs i : ℝ)
              / (specTotal (fun c => decide (c = 0)) vs cs : ℝ) < 1) ∧
        (Real.exp (p_Vect1.getD i 0)
            = (specNum (fun c => decide (c = 1)) vs cs i : ℝ)
              / (specTotal (fun c => decide (c = 1)) vs cs : ℝ) ∧
          0 < (specNum (fun c => decide (c = 1)) vs cs i : ℝ)
              / (specTotal (fun c => decide (c = 1)) vs cs : ℝ) ∧
          (specNum (fun c => decide (c = 1)) vs cs i : ℝ)
              / (specTotal (fun c => decide (c = 1)) vs cs : ℝ) < 1) := by
  have hnn : ∀ v ∈ vs, ∀ x ∈ v, 0 ≤ x := by
    intro v hv x hx
    rcases hbin v hv x hx with h | h <;> omega
  have hok := multinomialNB_ok ops m vs cs hne hm (le_of_eq hl.symm)
  simp only [specNum, specTotal, labelled_one_eq vs cs h01] at hok
  refine ⟨_, _, _, hok, ?_, ?_, by simp, by simp, ?_⟩
  · rw [sum_eq_count_one cs h01, hex.div_eq, hex.ofInt_eq, hex.ofInt_eq]
    apply div_nonneg <;> exact_mod_cast Nat.zero_le _
  · rw [sum_eq_count_one cs h01, hex.div_eq, hex.ofInt_eq, hex.ofInt_eq]
    apply div_le_one_of_le₀
    · exact_mod_cast List.count_le_length 1 cs
    · exact_mod_cast Nat.zero_le _
  · intro i hi
    obtain ⟨a0, b0⟩ := specNum_bounds (fun c => decide (c = 0)) vs cs hnn i
    obtain ⟨a1, b1⟩ := specNum_bounds (fun c => decide (c = 1)) vs cs hnn i
    obtain ⟨e0, p0, q0⟩ := exp_log_ratio _ _ a0 b0
    obtain ⟨e1, p1, q1⟩ := exp_log_ratio _ _ a1 b1
    rw [getD_range_map m _ i hi, getD_range_map m _ i hi]
    simp only [hex.log_eq, hex.div_eq, hex.ofInt_eq]
    simp only [specNum, specTotal] at e0 e1 p0 p1 q0 q1 ⊢
    rw [e0, e1]
    exact ⟨⟨rfl, p0, q0⟩, ⟨rfl, p1, q1⟩⟩

/-- Witness of C7: the real numbers as the exact interpretation, the corpus `[[1,0],[0,1]]`
and the labels `[0,1]`. -/
theorem multinomialNB_bounds_witness :
    (fun ops : Float64Ops ℝ =>
      IsExactReal ops ∧
      ∃ p_Vect0 p_Vect1 p_pro,
        MultinomialNB ops [[1, 0], [0, 1]] [0, 1] = .ok (p_Vect0, p_Vect1, p_pro) ∧
        0 ≤ p_pro ∧ p_pro ≤ 1 ∧ p_Vect0.length = 2 ∧ p_Vect1.length = 2 ∧
        ∀ i, i < 2 →
          (Real.exp (p_Vect0.getD i 0)
              = (specNum (fun c => decide (c = 0)) [[1, 0], [0, 1]] [0, 1] i : ℝ)
                / (specTotal (fun c => decide (c = 0)) [[1, 0], [0, 1]] [0, 1] : ℝ) ∧
            0 < (specNum (fun c => decide (c = 0)) [[1, 0], [0, 1]] [0, 1] i : ℝ)
                / (specTotal (fun c => decide (c = 0)) [[1, 0], [0, 1]] [0, 1] : ℝ) ∧
            (specNum (fun c => decide (c = 0)) [[1, 0], [0, 1]] [0, 1] i : ℝ)
                / (specTotal (fun c => decide (c = 0)) [[1, 0], [0, 1]] [0, 1] : ℝ) < 1) ∧
          (Real.exp (p_Vect1.getD i 0)
              = (specNum (fun c => decide (c = 1)) [[1, 0], [0, 1]] [0, 1] i : ℝ)
                / (specTotal (fun c => decide (c = 1)) [[1, 0], [0, 1]] [0, 1] : ℝ) ∧
            0 < (specNum (fun c => decide (c = 1)) [[1, 0], [0, 1]] [0, 1] i : ℝ)
                / (specTotal (fun c => decide (c = 1)) [[1, 0], [0, 1]] [0, 1] : ℝ) ∧
            (specNum (fun c => decide (c = 1)) [[1, 0], [0, 1]] [0, 1] i : ℝ)
                / (specTotal (fun c => decide (c = 1)) [[1, 0], [0, 1]] [0, 1] : ℝ) < 1))
      ⟨fun n => (n : ℝ), fun a b => a + b, fun a b => a - b, fun a b => a * b,
        fun a b => a / b, Real.log, fun a b => decide (a > b)⟩ :=
  ⟨⟨fun _ => rfl, fun _ _ => rfl, fun _ _ => rfl, fun _ _ => rfl, fun _ _ => rfl,
      fun _ => rfl, fun a b => by simp⟩,
    multinomialNB_bounds _
      ⟨fun _ => rfl, fun _ _ => rfl, fun _ _ => rfl, fun _ _ => rfl, fun _ _ => rfl,
        fun _ => rfl, fun a b => by simp⟩
      2 [[1, 0], [0, 1]] [0, 1] (by decide) (by decide) (by decide) (by decide) (by decide)⟩

/-- C8: for `d0 = ["love","my","dalmation"]` (label 0) and `d1 = ["stupid","garbage"]`
(label 1) the vocabulary is `["dalmation","garbage","love","my","stupid"]`, the vectors are
`[1,0,1,1,0]` and `[0,1,0,0,1]`, the counts are `[2,1,2,2,1]` over 5 and `[1,2,1,1,2]` over 4,
and `MultinomialNB` returns the logarithms of `2/5, 1/5, 2/5, 2/5, 1/5` and of
`1/4, 2/4, 1/4, 1/4, 2/4` with the prior `1/2`. -/
theorem endToEnd_training {F : Type} (ops : Float64Ops F) (o : MapOrder) :
    CreateUnionList o [["love", "my", "dalmation"], ["stupid", "garbage"]]
      = ["dalmation", "garbage", "love", "my", "stupid"] ∧
    Set2Vec ["dalmation", "garbage", "love", "my", "stupid"] ["love", "my", "dalmation"]
      = [1, 0, 1, 1, 0] ∧
    Set2Vec ["dalmation", "garbage", "love", "my", "stupid"] ["stupid", "garbage"]
      = [0, 1, 0, 0, 1] ∧
    trainCounts [[1, 0, 1, 1, 0], [0, 1, 0, 0, 1]] [0, 1]
      = .ok ⟨[2, 1, 2, 2, 1], 5, [1, 2, 1, 1, 2], 4⟩ ∧
    MultinomialNB ops [[1, 0, 1, 1, 0], [0, 1, 0, 0, 1]] [0, 1] = .ok
      ([ops.log (ops.div (ops.ofInt 2) (ops.ofInt 5)),
        ops.log (ops.div (ops.ofInt 1) (ops.ofInt 5)),
        ops.log (ops.div (ops.ofInt 2) (ops.ofInt 5)),
        ops.log (ops.div (ops.ofInt 2) (ops.ofInt 5)),
        ops.log (ops.div (ops.ofInt 1) (ops.ofInt 5))],
       [ops.log (ops.div (ops.ofInt 1) (ops.ofInt 4)),
        ops.log (ops.div (ops.ofInt 2) (ops.ofInt 4)),
        ops.log (ops.div (ops.ofInt 1) (ops.ofInt 4)),
        ops.log (ops.div (ops.ofInt 1) (ops.ofInt 4)),
        ops.log (ops.div (ops.ofInt 2) (ops.ofInt 4))],
       ops.div (ops.ofInt 1) (ops.ofInt 2)) := by
  refine ⟨?_, by decide, by decide, rfl, train_example ops⟩
  apply createUnionList_eq_of
  · simp [List.Sorted, String.le_iff_toList_le]
    decide
  · decide
  · intro t
    simp
    tauto

/-- C9: under exact arithmetic, the model trained on `[1,0,1,1,0]` (label 0) and
`[0,1,0,0,1]` (label 1) is the logarithms of `2/5, 1/5, 2/5, 2/5, 1/5`, the logarithms of
`1/4, 2/4, 1/4, 1/4, 2/4` and the prior `1/2`; with it `ClassNB` returns 0 for `[1,0,1,1,0]`
and 1 for `[0,1,0,0,1]`. -/
theorem endToEnd_classification (ops : Float64Ops ℝ) (hex : IsExactReal ops) :
    ∃ p_Vect0 p_Vect1 p_pro,
      MultinomialNB ops [[1, 0, 1, 1, 0], [0, 1, 0, 0, 1]] [0, 1]
        = .ok (p_Vect0, p_Vect1, p_pro) ∧
      p_Vect0 = [Real.log (2 / 5), Real.log (1 / 5), Real.log (2 / 5), Real.log (2 / 5),
        Real.log (1 / 5)] ∧
      p_Vect1 = [Real.log (1 / 4), Real.log (2 / 4), Real.log (1 / 4), Real.log (1 / 4),
        Real.log (2 / 4)] ∧
      p_pro = 1 / 2 ∧
      ClassNB ops [1, 0, 1, 1, 0] p_Vect0 p_Vect1 p_pro = .ok 0 ∧
      ClassNB ops [0, 1, 0, 0, 1] p_Vect0 p_Vect1 p_pro = .ok 1 := by
  have ha : Real.log (1 / 4) < Real.log (2 / 5) :=
    Real.log_lt_log (by norm_num) (by norm_num)
  have hb : Real.log (1 / 5) < Real.log (2 / 4) :=
    Real.log_lt_log (by norm_num) (by norm_num)
  have h12 : (1 : ℝ) - 1 / 2 = 1 / 2 := by norm_num
  have hv0 : [ops.log (ops.div (ops.ofInt 2) (ops.ofInt 5)),
        ops.log (ops.div (ops.ofInt 1) (ops.ofInt 5)),
        ops.log (ops.div (ops.ofInt 2) (ops.ofInt 5)),
        ops.log (ops.div (ops.ofInt 2) (ops.ofInt 5)),
        ops.log (ops.div (ops.ofInt 1) (ops.ofInt 5))]
      = [Real.log (2 / 5), Real.log (1 / 5), Real.log (2 / 5), Real.log (2 / 5),
        Real.log (1 / 5)] := by
    simp only [hex.log_eq, hex.div_eq, hex.ofInt_eq]
    push_cast
    rfl
  have hv1 : [ops.log (ops.div (ops.ofInt 1) (ops.ofInt 4)),
        ops.log (ops.div (ops.ofInt 2) (ops.ofInt 4)),
        ops.log (ops.div (ops.ofInt 1) (ops.ofInt 4)),
        ops.log (ops.div (ops.ofInt 1) (ops.ofInt 4)),
        ops.log (ops.div (ops.ofInt 2) (ops.ofInt 4))]
      = [Real.log (1 / 4), Real.log (2 / 4), Real.log (1 / 4), Real.log (1 / 4),
        Real.log (2 / 4)] := by
    simp only [hex.log_eq, hex.div_eq, hex.ofInt_eq]
    push_cast
    rfl
  have hp : ops.div (ops.ofInt 1) (ops.ofInt 2) = 1 / 2 := by
    simp only [hex.div_eq, hex.ofInt_eq]
    push_cast
    rfl
  refine ⟨_, _, _, train_example ops, hv0, hv1, hp, ?_, ?_⟩
  · rw [hv0, hv1, hp, classNB_ok _ _ _ _ _ (by decide) (by decide)]
    congr 1
    apply if_neg
    rw [hex.gt_iff]
    simp only [specScore, List.zipWith, List.foldl, hex.add_eq, hex.mul_eq, hex.log_eq,
      hex.sub_eq, hex.ofInt_eq]
    push_cast
    rw [h12]
    linarith
  · rw [hv0, hv1, hp, classNB_ok _ _ _ _ _ (by decide) (by decide)]
    congr 1
    apply if_pos
    rw [hex.gt_iff]
    simp only [specScore, List.zipWith, List.foldl, hex.add_eq, hex.mul_eq, hex.log_eq,
      hex.sub_eq, hex.ofInt_eq]
    push_cast
    rw [h12]
    linarith

/-- Witness of C9: the real numbers as the exact interpretation. -/
theorem endToEnd_classification_witness :
    (fun ops : Float64Ops ℝ =>
      IsExactReal ops ∧
      ∃ p_Vect0 p_Vect1 p_pro,
        MultinomialNB ops [[1, 0, 1, 1, 0], [0, 1, 0, 0, 1]] [0, 1]
          = .ok (p_Vect0, p_Vect1, p_pro) ∧
        p_Vect0 = [Real.log (2 / 5), Real.log (1 / 5), Real.log (2 / 5), Real.log (2 / 5),
          Real.log (1 / 5)] ∧
        p_Vect1 = [Real.log (1 / 4), Real.log (2 / 4), Real.log (1 / 4), Real.log (1 / 4),
          Real.log (2 / 4)] ∧
        p_pro = 1 / 2 ∧
        ClassNB ops [1, 0, 1, 1, 0] p_Vect0 p_Vect1 p_pro = .ok 0 ∧
        ClassNB ops [0, 1, 0, 0, 1] p_Vect0 p_Vect1 p_pro = .ok 1)
      ⟨fun n => (n : ℝ), fun a b => a + b, fun a b => a - b, fun a b => a * b,
        fun a b => a / b, Real.log, fun a b => decide (a > b)⟩ :=
  ⟨⟨fun _ => rfl, fun _ _ => rfl, fun _ _ => rfl, fun _ _ => rfl, fun _ _ => rfl,
      fun _ => rfl, fun a b => by simp⟩,
    endToEnd_classification _
      ⟨fun _ => rfl, fun _ _ => rfl, fun _ _ => rfl, fun _ _ => rfl, fun _ _ => rfl,
        fun _ => rfl, fun a b => by simp⟩⟩

/-- C10, as the code behaves: `MultinomialNB` checks nothing and has no error result other
than the run-time panic.  On an empty corpus it panics with an index out of range; on a
non-empty corpus of vectors of equal length `m` (zero included) it panics with an index out
of range when the labels are fewer than the vectors, and returns a model, whose two vectors
have length `m`, when the labels are at least as many as the vectors. -/
theorem multinomialNB_unvalidated {F : Type} (ops : Float64Ops F) (m : Nat)
    (vs : List (List Int)) (cs : List Int) (hm : ∀ v ∈ vs, v.length = m) :
    (vs = [] → MultinomialNB ops vs cs = .error .indexOutOfRange) ∧
    (vs ≠ [] → cs.length < vs.length →
      MultinomialNB ops vs cs = .error .indexOutOfRange) ∧
    (vs ≠ [] → vs.length ≤ cs.length →
      ∃ p_Vect0 p_Vect1 p_pro, MultinomialNB ops vs cs = .ok (p_Vect0, p_Vect1, p_pro) ∧
        p_Vect0.length = m ∧ p_Vect1.length = m) := by
  refine ⟨?_, ?_, ?_⟩
  · intro h
    subst h
    rfl
  · intro _ hl
    unfold MultinomialNB
    rw [trainCounts_error m vs cs hm hl]
    rfl
  · intro hne hl
    exact ⟨_, _, _, multinomialNB_ok ops m vs cs hne hm hl, by simp, by simp⟩

/-- Witness of C10 as amended: a corpus of one vector of length zero, with one label. -/
theorem multinomialNB_unvalidated_witness :
    (([[]] : List (List Int)) = [] →
      MultinomialNB machineOps [[]] [0] = .error .indexOutOfRange) ∧
    (([[]] : List (List Int)) ≠ [] → ([0] : List Int).length < ([[]] : List (List Int)).length →
      MultinomialNB machineOps [[]] [0] = .error .indexOutOfRange) ∧
    (([[]] : List (List Int)) ≠ [] → ([[]] : List (List Int)).length ≤ ([0] : List Int).length →
      ∃ p_Vect0 p_Vect1 p_pro, MultinomialNB machineOps [[]] [0] = .ok (p_Vect0, p_Vect1, p_pro) ∧
        p_Vect0.length = 0 ∧ p_Vect1.length = 0) :=
  multinomialNB_unvalidated machineOps 0 [[]] [0] (by decide)

/-- C10 as stated fails: on the empty corpus `MultinomialNB` panics with an index out of
range, and on a corpus of one vector of length zero, and on one vector with two labels, it
returns a model. -/
theorem multinomialNB_invalidInput_counterexample :
    MultinomialNB machineOps [] [] = .error .indexOutOfRange ∧
    (∃ model, MultinomialNB machineOps [[]] [0] = .ok model) ∧
    (∃ model, MultinomialNB machineOps [[1]] [0, 1] = .ok model) :=
  ⟨rfl, ⟨_, rfl⟩, ⟨_, rfl⟩⟩

/-- C11, as the code behaves: `ClassNB` checks nothing and has no error result other than
the run-time panic.  When `p_v0` or `p_v1` is shorter than `doc` it panics with an index out
of range; when both are at least as long as `doc` it returns the label, 0 or 1, that it
returns for their first `len(doc)` entries, the entries beyond being ignored. -/
theorem classNB_unvalidated {F : Type} (ops : Float64Ops F) (doc : List Int)
    (p_v0 p_v1 : List F) (p_p : F) :
    (p_v0.length < doc.length ∨ p_v1.length < doc.length →
      ClassNB ops doc p_v0 p_v1 p_p = .error .indexOutOfRange) ∧
    (doc.length ≤ p_v0.length → doc.length ≤ p_v1.length →
      ClassNB ops doc p_v0 p_v1 p_p
        = ClassNB ops doc (p_v0.take doc.length) (p_v1.take doc.length) p_p ∧
      (ClassNB ops doc p_v0 p_v1 p_p = .ok 0 ∨ ClassNB ops doc p_v0 p_v1 p_p = .ok 1)) := by
  refine ⟨?_, ?_⟩
  · intro h
    unfold ClassNB
    by_cases h0 : p_v0.length < doc.length
    · rw [multiplication_arr_error ops doc p_v0 h0]
      rfl
    · have h1 : p_v1.length < doc.length := by
        rcases h with h | h
        · exact absurd h h0
        · exact h
      rw [multiplication_arr_ok ops doc p_v0 (by omega),
        multiplication_arr_error ops doc p_v1 h1]
      rfl
  · intro h0 h1
    constructor
    · rw [classNB_ok ops doc p_v0 p_v1 p_p h0 h1,
        classNB_ok ops doc _ _ p_p (by simp [h0]) (by simp [h1])]
      have e0 := zipWith_take_length (fun d p => ops.mul (ops.ofInt d) p) doc p_v0
      have e1 := zipWith_take_length (fun d p => ops.mul (ops.ofInt d) p) doc p_v1
      rw [List.take_length] at e0 e1
      simp only [specScore, e0, e1]
    · rw [classNB_ok ops doc p_v0 p_v1 p_p h0 h1]
      split
      · exact Or.inr rfl
      · exact Or.inl rfl

/-- Witness of C11 as amended: a vector of one entry against a model of no entry. -/
theorem classNB_unvalidated_witness :
    ClassNB machineOps [1] [] [] (Float.ofInt 0) = .error .indexOutOfRange :=
  (classNB_unvalidated machineOps [1] [] [] (Float.ofInt 0)).1 (Or.inl (by decide))

/-- C11 as stated fails: with a model shorter than the vector `ClassNB` panics with an index
out of range, and with a model longer than the vector it returns a label. -/
theorem classNB_invalidInput_counterexample :
    ClassNB machineOps [1] [] [] (Float.ofInt 0) = .error .indexOutOfRange ∧
    (∃ label, ClassNB machineOps [] [Float.ofInt 0] [Float.ofInt 0] (Float.ofInt 0)
      = .ok label) :=
  ⟨rfl, ⟨_, classNB_ok machineOps [] [Float.ofInt 0] [Float.ofInt 0] (Float.ofInt 0)
    (by decide) (by decide)⟩⟩

/-- C12: the functions `Union` and `Intersect` are commutative and associative on sets
compared by their elements, whatever the traversal orders of the maps. -/
theorem union_intersect_comm_assoc (o o' : MapOrder) (a b c : Set) :
    sameElements (Union o [a, b]) (Union o' [b, a]) ∧
    sameElements (Union o [Union o [a, b], c]) (Union o' [a, Union o' [b, c]]) ∧
    sameElements (Intersect o [a, b]) (Intersect o' [b, a]) ∧
    sameElements (Intersect o [Intersect o [a, b], c])
      (Intersect o' [a, Intersect o' [b, c]]) := by
  refine ⟨?_, ?_, ?_, ?_⟩ <;> intro t
  · simp only [mem_Union_two, List.mem_cons, List.mem_nil_iff, or_false, exists_eq_or_imp,
      exists_eq_left]
    tauto
  · simp only [mem_Union_two, List.mem_cons, List.mem_nil_iff, or_false, exists_eq_or_imp,
      exists_eq_left]
    tauto
  · simp only [mem_Intersect_two, List.mem_cons, List.mem_nil_iff, or_false, forall_eq_or_imp,
      forall_eq]
    tauto
  · simp only [mem_Intersect_two, List.mem_cons, List.mem_nil_iff, or_false, forall_eq_or_imp,
      forall_eq]
    tauto

/-- C13, as the code behaves: `Complement(Complement(s, full), full)` has exactly the elements
of `s` that are elements of `full`; it has the elements of `s` when every element of `s` is
an element of `full`. -/
theorem complement_complement (o o' : MapOrder) (s full : Set) :
    (∀ t, t ∈ (Complement o (Complement o' s full) full).m ↔ t ∈ s.m ∧ t ∈ full.m) ∧
    ((∀ t ∈ s.m, t ∈ full.m) →
      sameElements (Complement o (Complement o' s full) full) s) := by
  have h : ∀ t, t ∈ (Complement o (Complement o' s full) full).m ↔ t ∈ s.m ∧ t ∈ full.m := by
    intro t
    simp only [mem_Complement]
    tauto
  refine ⟨h, ?_⟩
  intro hsub t
  rw [h]
  exact ⟨fun hx => hx.1, fun hx => ⟨hx, hsub t hx⟩⟩

/-- Witness of C13 as amended: `s = {"a"}` inside `full = {"a","b"}`. -/
theorem complement_complement_witness :
    sameElements
      (Complement insertionOrder (Complement reverseOrder (New ["a"]) (New ["a", "b"]))
        (New ["a", "b"]))
      (New ["a"]) :=
  (complement_complement insertionOrder reverseOrder (New ["a"]) (New ["a", "b"])).2
    (by decide)

/-- C13 as stated fails: for `s = {"a"}` and `full` empty the double complement is empty,
and `"a"` is not an element of it. -/
theorem complement_complement_counterexample :
    ¬ sameElements
      (Complement insertionOrder (Complement insertionOrder (New ["a"]) (New [])) (New []))
      (New ["a"]) := by
  intro h
  have h1 := (h "a").2 (by decide)
  revert h1
  decide

/-- C14: for at least two sets, `Minus(s0, s1, ..., sn)` has exactly the elements of `s0`
that are elements of none of `s1, ..., sn`; and `Minus(s0, s0)` is empty. -/
theorem minus_spec (o : MapOrder) (s0 s1 : Set) (rest : List Set) :
    (∀ t, t ∈ (Minus o (s0 :: s1 :: rest)).m ↔ t ∈ s0.m ∧ ∀ s ∈ s1 :: rest, t ∉ s.m) ∧
    (Minus o [s0, s0]).Empty = true ∧ (Minus o [s0, s0]).m = [] := by
  have hnil : (Minus o [s0, s0]).m = [] := by
    rw [List.eq_nil_iff_forall_not_mem]
    intro t ht
    rw [mem_Minus_two] at ht
    exact ht.2 s0 (List.mem_singleton.2 rfl) ht.1
  refine ⟨mem_Minus_two o s0 s1 rest, ?_, hnil⟩
  simp [Set.Empty, hnil]

/-- C15: for a receiver `s` and at least one argument, the receiver after the method `Union`,
`Minus` or `Intersect` has exactly the elements of the function `Union`, `Minus` or
`Intersect` applied to `s` and the arguments, and the receiver after `s.Complement(full)` has
exactly the elements of `Complement(s, full)`. -/
theorem methods_agree_with_functions (o o' : MapOrder) (s t1 : Set) (ts : List Set)
    (full : Set) :
    sameElements (s.Union o (t1 :: ts)) (Union o' (s :: t1 :: ts)) ∧
    sameElements (s.Minus o (t1 :: ts)) (Minus o' (s :: t1 :: ts)) ∧
    sameElements (s.Intersect o (t1 :: ts)) (Intersect o' (s :: t1 :: ts)) ∧
    sameElements (s.Complement o full) (Complement o' s full) := by
  refine ⟨?_, ?_, ?_, ?_⟩ <;> intro t
  · simp only [mem_Set_Union, mem_Union_two, List.mem_cons, exists_eq_or_imp]
  · simp only [mem_Set_Minus, mem_Minus_two]
  · simp only [mem_Set_Intersect, mem_Intersect_two, List.mem_cons, forall_eq_or_imp]
  · simp only [mem_Set_Complement, mem_Complement]

/-- C16: on the set reached by `New` and any sequence of `Add` and `Remove`, `Has` is true
exactly when every listed token is an element, where a token is an element after it was
given to `New` or added, until it is removed; so `Has` is true for no token and false as
soon as one listed token is not an element. -/
theorem has_all_present (init : List String) (ops : List SetOp) (items : List String) :
    ((runOps init ops).Has items = true ↔ ∀ v ∈ items, v ∈ (runOps init ops).m) ∧
    (∀ t, t ∈ (runOps init ops).m ↔ isElement init ops t = true) ∧
    (runOps init ops).Has [] = true ∧
    ∀ v ∈ items, isElement init ops v = false → (runOps init ops).Has items = false := by
  refine ⟨has_iff _ items, mem_runOps init ops, rfl, ?_⟩
  intro v hv hel
  cases hh : (runOps init ops).Has items with
  | false => rfl
  | true =>
    have h1 := (has_iff _ items).1 hh v hv
    rw [mem_runOps, hel] at h1
    exact absurd h1 (by decide)

/-- C17: in each of the methods `Union`, `Minus`, `Intersect`, `Complement` and of the
functions `Union`, `Complement`, whatever the instances (equal or not) and however many
arguments, the caller never holds the locks of two instances at once: every lock is released
before the next one is taken. -/
theorem one_lock_at_a_time (s full sub fresh : Nat) (sets : List Nat) :
    neverTwoLocks (locks_Set_Union s sets) [] = true ∧
    neverTwoLocks (locks_Set_Minus s sets) [] = true ∧
    neverTwoLocks (locks_Set_Intersect s sets) [] = true ∧
    neverTwoLocks (locks_Set_Complement s full) [] = true ∧
    neverTwoLocks (locks_Union fresh sets) [] = true ∧
    neverTwoLocks (locks_Complement sub full) [] = true := by
  refine ⟨locks_method_free s sets, locks_method_free s sets, locks_method_free s sets,
    ?_, ?_, ?_⟩
  · simp [locks_Set_Complement, locks_Duplicate, neverTwoLocks, heldAfter]
  · cases sets with
    | nil => simp [locks_Union, locks_New, neverTwoLocks, heldAfter]
    | cons s0 rest =>
      cases rest with
      | nil => simp [locks_Union, neverTwoLocks]
      | cons s1 more =>
        obtain ⟨h1, _⟩ := locks_each_free (s1 :: more)
        obtain ⟨h3, h4⟩ := lock_unlock_free s0
        simp only [locks_Union, locks_Duplicate]
        rw [neverTwoLocks_append, h3, h4, h1]
        rfl
  · simp [locks_Complement, locks_Duplicate, neverTwoLocks, heldAfter]

/-- C18, as the code behaves: on a non-empty corpus in which every vector has the length of
the first one, with as many labels as vectors, `MultinomialNB` runs without an index out of
range: the counting loop and the whole function return a result; the number of labels is at
least 1; and when no entry is negative and, for each class, two plus the sum of all entries
of its vectors is at most `2^63 - 1`, both totals are at least 1. -/
theorem multinomialNB64_safe {F : Type} (ops : Float64Ops F) (vs : List (List Int))
    (cs : List Int) (hne : vs ≠ []) (hm : ∀ v ∈ vs, v.length = (vs.headD []).length)
    (hl : cs.length = vs.length) :
    (∃ model, MultinomialNB64 ops vs cs = .ok model) ∧
    (∃ counts, trainCounts64 vs cs = .ok counts ∧
      ((∀ v ∈ vs, ∀ x ∈ v, 0 ≤ x) →
        specTotal (fun c => decide (c = 0)) vs cs ≤ 9223372036854775807 →
        specTotal (fun c => decide (c ≠ 0)) vs cs ≤ 9223372036854775807 →
        1 ≤ counts.p_lap0 ∧ 1 ≤ counts.p_lap1)) ∧
    1 ≤ cs.length := by
  have hc : trainCounts64 vs cs
      = .ok (wrapCounts (countsOf (vs.headD []).length vs cs)) := by
    rw [trainCounts64_eq_map, trainCounts_ok _ vs cs hne hm (le_of_eq hl.symm)]
    rfl
  refine ⟨⟨_, multinomialNB64_ok ops _ vs cs hne hm (le_of_eq hl.symm)⟩, ⟨_, hc, ?_⟩, ?_⟩
  · intro hnn hb0 hb1
    have h0 := specNum_bounds (fun c => decide (c = 0)) vs cs hnn 0
    have h1 := specNum_bounds (fun c => decide (c ≠ 0)) vs cs hnn 0
    simp only [wrapCounts, countsOf]
    rw [wrapInt64_of_inInt64 _ ⟨by omega, hb0⟩, wrapInt64_of_inInt64 _ ⟨by omega, hb1⟩]
    omega
  · rw [hl]
    exact List.length_pos.2 hne

/-- Witness of C18 as amended: the corpus `[[1,0],[0,1]]` with labels `[0,1]`. -/
theorem multinomialNB64_safe_witness :
    (∃ model, MultinomialNB64 machineOps [[1, 0], [0, 1]] [0, 1] = .ok model) ∧
    (∃ counts, trainCounts64 [[1, 0], [0, 1]] [0, 1] = .ok counts ∧
      ((∀ v ∈ ([[1, 0], [0, 1]] : List (List Int)), ∀ x ∈ v, 0 ≤ x) →
        specTotal (fun c => decide (c = 0)) [[1, 0], [0, 1]] [0, 1] ≤ 9223372036854775807 →
        specTotal (fun c => decide (c ≠ 0)) [[1, 0], [0, 1]] [0, 1] ≤ 9223372036854775807 →
        1 ≤ counts.p_lap0 ∧ 1 ≤ counts.p_lap1)) ∧
    1 ≤ ([0, 1] : List Int).length :=
  multinomialNB64_safe machineOps [[1, 0], [0, 1]] [0, 1] (by decide) (by decide) (by decide)

/-- C18 as stated fails: the corpus `[[2^63 - 1], [2^63 - 1]]` with labels `[0, 0]` meets the
precondition and has no negative entry, and the total of class 0 is 0 when the loop ends. -/
theorem multinomialNB_safe_counterexample :
    ([[9223372036854775807], [9223372036854775807]] : List (List Int)) ≠ [] ∧
    (∀ v ∈ ([[9223372036854775807], [9223372036854775807]] : List (List Int)),
      v.length
        = (([[9223372036854775807], [9223372036854775807]] : List (List Int)).headD []).length) ∧
    ([0, 0] : List Int).length
      = ([[9223372036854775807], [9223372036854775807]] : List (List Int)).length ∧
    (∀ v ∈ ([[9223372036854775807], [9223372036854775807]] : List (List Int)),
      ∀ x ∈ v, 0 ≤ x) ∧
    ∃ counts, trainCounts64 [[9223372036854775807], [9223372036854775807]] [0, 0] = .ok counts ∧
      counts.p_lap0 = 0 :=
  ⟨by decide, by decide, by decide, by decide, ⟨_, rfl, rfl⟩⟩

/-- C19: on a non-empty corpus of vectors of equal length `m` with one label per vector,
applying one permutation to the vectors and to the labels leaves the result of the counting
loop (the counts `num_c[i]` and the totals `total_c`) and the result of `MultinomialNB` (the
two log-probability vectors and the prior) unchanged. -/
theorem multinomialNB_reorder_invariant {F : Type} (ops : Float64Ops F) (m : Nat)
    (vs vs' : List (List Int)) (cs cs' : List Int) (hne : vs ≠ [])
    (hm : ∀ v ∈ vs, v.length = m) (hl : cs.length = vs.length)
    (hl' : cs'.length = vs'.length) (hp : (vs.zip cs).Perm (vs'.zip cs')) :
    (∃ counts, trainCounts vs cs = .ok counts ∧ trainCounts vs' cs' = .ok counts) ∧
    (∃ model, MultinomialNB ops vs cs = .ok model ∧ MultinomialNB ops vs' cs' = .ok model) := by
  have hlen : vs'.length = vs.length := by
    have h := hp.length_eq
    simp only [List.length_zip, hl, hl', Nat.min_self] at h
    exact h.symm
  have hne' : vs' ≠ [] := by
    intro h
    rw [h] at hlen
    exact hne (List.length_eq_zero.1 hlen.symm)
  have hm' : ∀ v ∈ vs', v.length = m := by
    intro v hv
    have h1 : v ∈ (vs'.zip cs').map Prod.fst := by
      rw [List.map_fst_zip _ _ (le_of_eq hl'.symm)]
      exact hv
    obtain ⟨q, hq, rfl⟩ := List.mem_map.1 h1
    exact hm _ (List.of_mem_zip (hp.mem_iff.2 hq)).1
  have hcs : (cs.map id).Perm (cs'.map id) := by
    have h := hp.map Prod.snd
    rw [List.map_snd_zip _ _ (le_of_eq hl), List.map_snd_zip _ _ (le_of_eq hl')] at h
    simpa using h
  have hsum : sum cs = sum cs' := by
    rw [sum_eq, sum_eq]
    simpa using hcs.sum_eq
  have hcl : cs.length = cs'.length := by rw [hl, hl', hlen]
  have hcount := countsOf_perm m vs vs' cs cs' hp
  have hn : ∀ c, specNum c vs cs = specNum c vs' cs' := by
    intro c
    funext i
    unfold specNum
    rw [((labelled_perm c vs vs' cs cs' hp).map _).sum_eq]
  have ht : ∀ c, specTotal c vs cs = specTotal c vs' cs' := by
    intro c
    unfold specTotal
    rw [((labelled_perm c vs vs' cs cs' hp).map _).sum_eq]
  refine ⟨⟨_, trainCounts_ok m vs cs hne hm (le_of_eq hl.symm), ?_⟩,
    ⟨_, multinomialNB_ok ops m vs cs hne hm (le_of_eq hl.symm), ?_⟩⟩
  · rw [trainCounts_ok m vs' cs' hne' hm' (le_of_eq hl'.symm), hcount]
  · rw [multinomialNB_ok ops m vs' cs' hne' hm' (le_of_eq hl'.symm), hsum, hcl]
    simp only [hn, ht]

/-- Witness of C19: the corpus `[[1,0],[0,1]]` with labels `[0,1]`, and both reversed. -/
theorem multinomialNB_reorder_invariant_witness :
    (∃ counts, trainCounts [[1, 0], [0, 1]] [0, 1] = .ok counts ∧
      trainCounts [[0, 1], [1, 0]] [1, 0] = .ok counts) ∧
    (∃ model, MultinomialNB machineOps [[1, 0], [0, 1]] [0, 1] = .ok model ∧
      MultinomialNB machineOps [[0, 1], [1, 0]] [1, 0] = .ok model) :=
  multinomialNB_reorder_invariant machineOps 2 [[1, 0], [0, 1]] [[0, 1], [1, 0]] [0, 1] [1, 0]
    (by decide) (by decide) (by decide) (by decide) (List.Perm.swap _ _ _)

/-- C20: for a document `d` that is one of `docs`, the sum of the entries of
`Set2Vec(CreateUnionList(docs...), d)` is the number of distinct tokens of `d`, whatever the
traversal order of the map. -/
theorem set2Vec_sum_distinct (o : MapOrder) (docs : List (List String)) (d : List String)
    (hd : d ∈ docs) :
    sum (Set2Vec (CreateUnionList o docs) d) = (d.dedup.length : Nat) := by
  obtain ⟨_, hnodup, hmem⟩ := createUnionList_spec o docs
  rw [sum_eq, set2Vec_eq_map, sum_indicator]
  congr 1
  apply List.Perm.length_eq
  rw [List.perm_ext_iff_of_nodup (hnodup.filter _) (List.nodup_dedup d)]
  intro t
  simp only [List.mem_filter, decide_eq_true_eq, List.mem_dedup, hmem]
  constructor
  · exact fun h => h.2
  · exact fun h => ⟨⟨d, hd, h⟩, h⟩

/-- Witness of C20: the document `["b","a","b"]` among two documents. -/
theorem set2Vec_sum_distinct_witness :
    sum (Set2Vec (CreateUnionList reverseOrder [["b", "a", "b"], ["c"]]) ["b", "a", "b"])
      = ((["b", "a", "b"] : List String).dedup.length : Nat) :=
  set2Vec_sum_distinct reverseOrder [["b", "a", "b"], ["c"]] ["b", "a", "b"] (by decide)

end Bayes
